import Mathlib

/-!
Verification development for the night-logger / Beeminder synchronization
repository.  The Python sources are shallowly embedded as executable Lean
definitions:

* namespace NL models the local night-logger side: calendar dates and local
  timestamps, the night-window classifier and attribution rule
  (night_logger_github.py, night_logger_github_fixed_v3.py), the three
  violation extractors found in the repository (extract_violations.py,
  night_logger_github.py, night_logger_github_fixed_v3.py), and the
  posted-days table (mark_posted_today).

* namespace BM models the Beeminder ledger side: remote datapoints, the
  paginated fetch loops (sync_nightlogger.py, sync_violations.py), and the
  selective reconciliation algorithm
  (ViolationsSync.selective_sync_datapoints in sync_violations.py),
  including the trace of create and delete calls it issues.

SQLite/JSON strings that only serve as identifiers (dates, ids) are
abstracted injectively: calendar dates on the logger side are year-month-day
records, dates on the Beeminder side (local dates of unix timestamps,
produced by datetime.fromtimestamp().strftime) are epoch day numbers.
-/

/-! ### Association lists with Python-dict semantics

Python dicts preserve insertion order and update values in place.  Both
sides of the embedding use these as date-keyed maps. -/

def alookup {κ β : Type} [DecidableEq κ] : List (κ × β) → κ → Option β
  | [], _ => none
  | p :: r, k => if p.1 = k then some p.2 else alookup r k

def dictInsert {κ β : Type} [DecidableEq κ] : List (κ × β) → κ → β → List (κ × β)
  | [], k, v => [(k, v)]
  | p :: r, k, v => if p.1 = k then (k, v) :: r else p :: dictInsert r k v

namespace NL

/-! ### NL: the local night-logger side -/

/-- A calendar date, the injective abstraction of a "YYYY-MM-DD" string. -/

structure Date where
  year : Nat
  month : Nat
  day : Nat
deriving DecidableEq, Repr

/-- A local timestamp, the injective abstraction of an ISO-8601
"YYYY-MM-DDTHH:MM:SS.sssZ" string as stored in the logs table.  The field
sub packs minutes, seconds and the fractional part into one number in an
order-preserving way, so that lexicographic comparison of timestamps agrees
with lexicographic comparison of the canonical strings (which is what
SQLite's MIN computes on them). -/

structure Ts where
  date : Date
  hour : Nat
  sub : Nat
deriving DecidableEq, Repr

/-- is_between_23_and_359_local (night_logger_github.py line 58,
night_logger_github_fixed_v3.py line 64): local hour >= 23 or <= 3. -/

def isNight (t : Ts) : Bool := t.hour ≥ 23 || t.hour ≤ 3

def isLeap (y : Nat) : Bool := (y % 4 == 0 && y % 100 != 0) || (y % 400 == 0)

def daysInMonth (y m : Nat) : Nat :=
  if m = 2 then (if isLeap y then 29 else 28)
  else if m = 4 || m = 6 || m = 9 || m = 11 then 30
  else 31

/-- Gregorian predecessor of a calendar date: the common meaning of
Python's now - timedelta(days=1) and SQLite's date(x, '-1 day') at the
date level. -/

def prevDay (d : Date) : Date :=
  if d.day > 1 then ⟨d.year, d.month, d.day - 1⟩
  else if d.month > 1 then ⟨d.year, d.month - 1, daysInMonth d.year (d.month - 1)⟩
  else ⟨d.year - 1, 12, 31⟩

/-- The attribution rule.  Sources: the main loop of
night_logger_github_fixed_v3.py lines 385-390 (and night_logger_github.py
lines 325-329): when is_night, hour <= 3 attributes the sample to the
previous local day; and the SQL CASE of night_logger_github.py lines
136-141 (strftime hour <= 3 gives DATE(logged_at, '-1 day')). -/

def attributedDate (t : Ts) : Date :=
  if t.hour ≤ 3 then prevDay t.date else t.date

/-- Lexicographic date comparison: the order of canonical "YYYY-MM-DD"
strings. -/

def dateLt (a b : Date) : Bool :=
  a.year < b.year ||
    (a.year == b.year && (a.month < b.month || (a.month == b.month && a.day < b.day)))

/-- Lexicographic timestamp comparison: the order of canonical ISO-8601
strings, which SQLite's MIN and ORDER BY use on logged_at values. -/

def tsLt (a b : Ts) : Bool :=
  dateLt a.date b.date ||
    (a.date == b.date && (a.hour < b.hour || (a.hour == b.hour && a.sub < b.sub)))

def tsLe (a b : Ts) : Bool := tsLt a b || a == b

/-- MIN(logged_at) over a list of timestamps (none on the empty group). -/

def listMinTs (l : List Ts) : Option Ts :=
  l.foldl (fun acc t =>
    match acc with
    | none => some t
    | some m => if tsLe t m then some t else some m) none

/-- A row of the logs table: logged_at timestamp plus the stored 0/1
is_night flag (the auto-increment id only fixes the list order). -/

structure LogRow where
  t : Ts
  is_night : Bool
deriving DecidableEq, Repr

/-- The store: logs plus the posts table (ymd primary key with the
posted_at timestamp). -/

structure Store where
  logs : List LogRow
  posts : List (Date × Ts)
deriving DecidableEq, Repr

def pad2 (n : Nat) : String := if n < 10 then "0" ++ toString n else toString n

def ymdString (d : Date) : String :=
  toString d.year ++ "-" ++ pad2 d.month ++ "-" ++ pad2 d.day

/-- date.replace("-", "") applied to the YYYY-MM-DD string. -/

def daystampString (d : Date) : String :=
  toString d.year ++ pad2 d.month ++ pad2 d.day

/-- The f-string "Night logger violation ({count} detections)". -/

def mkComment (n : Nat) : String :=
  "Night logger violation (" ++ toString n ++ " detections)"

/-- One entry of the violations list in violations.json. -/

structure Violation where
  date : Date
  timestamp : Ts
  value : Int
  comment : String
  daystamp : String
deriving DecidableEq, Repr

def mkViolation (d : Date) (ts : Ts) (count : Nat) : Violation :=
  { date := d, timestamp := ts, value := 1, comment := mkComment count,
    daystamp := daystampString d }

/-- The violations.json document (last_updated, a wall-clock string, is
omitted: no claim concerns it). -/

structure Extraction where
  violations : List Violation
  posted_dates : List Date
  total_violations : Nat
  unposted_violations : List Violation
deriving DecidableEq, Repr

/-- Insertion sort, descending under dateLt (ORDER BY date DESC). -/

def insertDesc (d : Date) : List Date → List Date
  | [] => [d]
  | x :: r => if dateLt x d then d :: x :: r else x :: insertDesc d r

def sortDesc (l : List Date) : List Date := l.foldr insertDesc []

/-- Insertion sort, ascending (ORDER BY ymd). -/

def insertAsc (d : Date) : List Date → List Date
  | [] => [d]
  | x :: r => if dateLt d x then d :: x :: r else x :: insertAsc d r

def sortAsc (l : List Date) : List Date := l.foldr insertAsc []

/-- De-duplication of a key list keeping first occurrences (the effect of
SQL GROUP BY on the list of group keys, in first-appearance order before
sorting). -/

def dedupDates (l : List Date) : List Date :=
  l.foldl (fun acc d => if d ∈ acc then acc else acc ++ [d]) []

/-- WHERE is_night = 1. -/

def nightRows (logs : List LogRow) : List LogRow := logs.filter (fun r => r.is_night)

/-- The group of night rows with raw date DATE(logged_at) = d
(extract_violations.py GROUP BY DATE(logged_at)). -/

def rawGroup (logs : List LogRow) (d : Date) : List LogRow :=
  (nightRows logs).filter (fun r => r.t.date == d)

/-- The group of night rows attributed to calendar day d
(night_logger_github.py GROUP BY the attribution CASE). -/

def attrGroup (logs : List LogRow) (d : Date) : List LogRow :=
  (nightRows logs).filter (fun r => attributedDate r.t == d)

/-- extract_violations of extract_violations.py lines 13-63: group the
is_night = 1 rows by the raw date DATE(logged_at), emit one violation per
group.  The SELECT reads logged_at as a bare (non-aggregated) column next
to COUNT(*), for which SQLite yields the value from one unspecified row of
the group; this embedding takes the last row of the group in table order.
posted_dates is read from posts (ORDER BY ymd, then passed through a
set, modelled as the fetched ascending order). -/

def extractV1 (s : Store) : Extraction :=
  let keys := sortDesc (dedupDates ((nightRows s.logs).map (fun r => r.t.date)))
  let violations := keys.filterMap (fun d =>
    (((rawGroup s.logs d).map (fun r => r.t)).getLast?).map (fun ts =>
      mkViolation d ts (rawGroup s.logs d).length))
  let posted := sortAsc (s.posts.map Prod.fst)
  { violations := violations, posted_dates := posted,
    total_violations := violations.length,
    unposted_violations := violations.filter (fun v => ¬ v.date ∈ posted) }

/-- extract_violations of night_logger_github.py lines 92-191: group the
is_night = 1 rows by the attribution CASE, emit one violation per group
with MIN(logged_at) and COUNT(*), ORDER BY violation_date DESC. -/

def keysV2 (s : Store) : List Date :=
  sortDesc (dedupDates ((nightRows s.logs).map (fun r => attributedDate r.t)))

def mkViolV2 (s : Store) (d : Date) : Option Violation :=
  (listMinTs ((attrGroup s.logs d).map (fun r => r.t))).map (fun ts =>
    mkViolation d ts (attrGroup s.logs d).length)

def extractV2 (s : Store) : Extraction :=
  let violations := (keysV2 s).filterMap (mkViolV2 s)
  let posted := sortAsc (s.posts.map Prod.fst)
  { violations := violations, posted_dates := posted,
    total_violations := violations.length,
    unposted_violations := violations.filter (fun v => ¬ v.date ∈ posted) }

/-- extract_violations of night_logger_github_fixed_v3.py lines 151-239:
the posts table drives the output.  For each posted ymd (ORDER BY ymd) the
logs are scanned for is_night = 1 rows whose attribution (hour <= '03'
gives date(logged_at, '-1 day'), otherwise date(logged_at)) equals that
ymd; a violation is emitted only when the count is positive, and
unposted_violations is the empty list by construction. -/

def sqlGroupV3 (s : Store) (d : Date) : List LogRow :=
  (nightRows s.logs).filter (fun r =>
    (r.t.hour ≤ 3 && prevDay r.t.date == d) || (r.t.hour > 3 && r.t.date == d))

def mkViolV3 (s : Store) (d : Date) : Option Violation :=
  (listMinTs ((sqlGroupV3 s d).map (fun r => r.t))).map (fun ts =>
    mkViolation d ts (sqlGroupV3 s d).length)

def extractV3 (s : Store) : Extraction :=
  let posted := sortAsc (s.posts.map Prod.fst)
  { violations := posted.filterMap (mkViolV3 s), posted_dates := posted,
    total_violations := (posted.filterMap (mkViolV3 s)).length,
    unposted_violations := [] }

/-- mark_posted_today (night_logger_github_fixed_v3.py lines 90-95,
night_logger_github.py lines 84-89): INSERT OR IGNORE INTO posts, with ymd
the primary key.  With the key present the statement is a no-op, otherwise
the row is appended. -/

def markPosted (posts : List (Date × Ts)) (d : Date) (now : Ts) : List (Date × Ts) :=
  if (alookup posts d).isSome then posts else posts ++ [(d, now)]

end NL

namespace BM

/-! ### BM: the Beeminder ledger side -/

/-- A remote Beeminder datapoint.  The id models the opaque non-empty id
string (always truthy in the Python code's `if dp_id` guards), value the
float value (the violations pipeline only ever writes integral values) and
timestamp the unix-seconds integer. -/

structure DP where
  id : Nat
  timestamp : Nat
  value : Int
  comment : String
deriving DecidableEq, Repr

/-- A violation as read from violations.json by sync_violations.py.  The
date field is the parsed "YYYY-MM-DD" string as an epoch day number, and
timestamp the unix-seconds conversion of the ISO timestamp string (the
code performs this identical conversion in create_datapoint and in
selective_sync_datapoints). -/

structure SotViolation where
  date : Nat
  timestamp : Nat
  value : Int
  comment : String
deriving DecidableEq, Repr

/-- datetime.fromtimestamp(ts).strftime('%Y-%m-%d') as an epoch day
number; the embedding fixes the local timezone at UTC offset 0 since all
claims depend only on this being one fixed function of the timestamp. -/

def dayOf (ts : Nat) : Nat := ts / 86400

/-- A remote call issued by the reconciler (list calls are tracked
separately by the fetch model). -/

inductive Op where
  | delete (id : Nat)
  | create (dp : DP)
deriving DecidableEq, Repr

def isDeleteOp : Op → Bool
  | .delete _ => true
  | .create _ => false

def isCreateOp : Op → Bool
  | .delete _ => false
  | .create _ => true

/-- Server meaning of one call, all calls succeeding: delete removes the
datapoint with the given id, create appends the new datapoint. -/

def applyOp (l : List DP) : Op → List DP
  | .delete i => l.filter (fun e => e.id ≠ i)
  | .create dp => l ++ [dp]

def applyOps (l : List DP) (ops : List Op) : List DP := ops.foldl applyOp l

/-- One step of the duplicate scan of selective_sync_datapoints
(sync_violations.py lines 137-150): state is (beeminder_by_date,
duplicates_to_delete); a datapoint strictly newer than the one stored for
its date replaces it and marks the old one for deletion, otherwise the
incoming one is marked. -/

def dedupStep (st : List (Nat × DP) × List DP) (dp : DP) : List (Nat × DP) × List DP :=
  match alookup st.1 (dayOf dp.timestamp) with
  | some existing =>
      if dp.timestamp > existing.timestamp
      then (dictInsert st.1 (dayOf dp.timestamp) dp, st.2 ++ [existing])
      else (st.1, st.2 ++ [dp])
  | none => (dictInsert st.1 (dayOf dp.timestamp) dp, st.2)

def dedupScan (l : List DP) : List (Nat × DP) × List DP := l.foldl dedupStep ([], [])

def dedupMap (l : List DP) : List (Nat × DP) := (dedupScan l).1

def dedupDups (l : List DP) : List DP := (dedupScan l).2

/-- Specification-side description of the dedup keep rule as the code
implements it: the entry with the greatest timestamp, the entry seen
first in fetch order winning ties. -/

def firstMaxTs (g : List DP) : Option DP :=
  g.foldl (fun acc x =>
    match acc with
    | none => some x
    | some a => if x.timestamp > a.timestamp then some x else some a) none

/-- The ledger entries whose timestamp falls on local day d. -/

def groupAtDay (l : List DP) (d : Nat) : List DP :=
  l.filter (fun e => dayOf e.timestamp == d)

/-- beeminder_by_date as rebuilt from a refetch after duplicate cleanup
(sync_violations.py lines 161-167): a plain last-wins date-keyed dict. -/

def buildByDate (l : List DP) : List (Nat × DP) :=
  l.foldl (fun m dp => dictInsert m (dayOf dp.timestamp) dp) []

/-- sot_violations (sync_violations.py line 130): date-keyed dict of the
violations list, later entries winning. -/

def buildSotMap (sot : List SotViolation) : List (Nat × SotViolation) :=
  sot.foldl (fun m v => dictInsert m v.date v) []

/-- The staleness test of sync_violations.py lines 193-195: timestamps
differing by more than 1 second, or value or comment differing. -/

def mismatch (dp : DP) (v : SotViolation) : Bool :=
  (max dp.timestamp v.timestamp - min dp.timestamp v.timestamp > 1 : Bool) ||
    dp.value ≠ v.value || dp.comment ≠ v.comment

/-- The datapoint created for a violation (create_datapoint,
sync_violations.py lines 59-85): unix timestamp, value and comment from
the violation; the id is assigned by the server, modelled as fresh. -/

def mkDP (i : Nat) (v : SotViolation) : DP :=
  { id := i, timestamp := v.timestamp, value := v.value, comment := v.comment }

def maxId (l : List DP) : Nat := l.foldl (fun a e => max a e.id) 0

/-- Fresh server ids for the recreated datapoints of the update loop,
paired with the stale datapoint they replace. -/

def assignUpd (base : Nat) : List (DP × SotViolation) → List (DP × DP)
  | [] => []
  | (e, v) :: r => (e, mkDP base v) :: assignUpd (base + 1) r

/-- Fresh server ids for the datapoints of the create loop. -/

def assignNew (base : Nat) : List SotViolation → List DP
  | [] => []
  | v :: r => mkDP base v :: assignNew (base + 1) r

/-- The post-dedup state: the refetched datapoint list (the original list
with the deleted duplicates removed) and the date-keyed dict the code
works with afterwards: the scan's dict when no duplicate was found, the
rebuilt dict of the refetch otherwise. -/

def ledgerAfterDedup (ledger : List DP) : List DP :=
  ledger.filter (fun e => (dedupDups ledger).all (fun x => x.id ≠ e.id))

def byDateOf (ledger : List DP) : List (Nat × DP) :=
  if dedupDups ledger = [] then dedupMap ledger else buildByDate (ledgerAfterDedup ledger)

/-- to_delete (line 176): dates in Beeminder but not in the SoT, listed in
beeminder_by_date order (Python iterates the difference as a set; the
final state does not depend on the order). -/

def toDeleteOf (sot : List SotViolation) (ledger : List DP) : List (Nat × DP) :=
  (byDateOf ledger).filter (fun p => alookup (buildSotMap sot) p.1 = none)

/-- The per-date update check (lines 180-196): a date in both maps whose
datapoint fails the comparison yields the stale datapoint paired with the
authoritative violation. -/

def updCheck (sot : List SotViolation) (p : Nat × DP) : Option (DP × SotViolation) :=
  match alookup (buildSotMap sot) p.1 with
  | some v => if mismatch p.2 v then some (p.2, v) else none
  | none => none

/-- to_update (lines 180-196). -/

def toUpdateOf (sot : List SotViolation) (ledger : List DP) : List (DP × SotViolation) :=
  (byDateOf ledger).filterMap (updCheck sot)

/-- to_create (line 175): dates in the SoT but absent from Beeminder. -/

def toCreateOf (sot : List SotViolation) (ledger : List DP) : List (Nat × SotViolation) :=
  (buildSotMap sot).filter (fun p => alookup (byDateOf ledger) p.1 = none)

def updNewsOf (sot : List SotViolation) (ledger : List DP) : List (DP × DP) :=
  assignUpd (maxId ledger + 1) (toUpdateOf sot ledger)

def crNewsOf (sot : List SotViolation) (ledger : List DP) : List DP :=
  assignNew (maxId ledger + 1 + (toUpdateOf sot ledger).length)
    ((toCreateOf sot ledger).map Prod.snd)

/-- The calls issued by one run of selective_sync_datapoints
(sync_violations.py lines 122-231), in program order: duplicate deletions
(lines 152-159), then to_delete deletions (lines 204-209), then the update
loop which deletes and immediately recreates each stale datapoint (lines
212-220), then the to_create creations (lines 223-226). -/

def traceOf (sot : List SotViolation) (ledger : List DP) : List Op :=
  (dedupDups ledger).map (fun e => Op.delete e.id)
    ++ (toDeleteOf sot ledger).map (fun p => Op.delete p.2.id)
    ++ (updNewsOf sot ledger).flatMap (fun q => [Op.delete q.1.id, Op.create q.2])
    ++ (crNewsOf sot ledger).map Op.create

structure SyncRun where
  trace : List Op
  ledger : List DP
deriving DecidableEq, Repr

/-- One complete run of selective_sync_datapoints against a ledger whose
fetched state is the given list, with every remote call succeeding -/

def runSync (sot : List SotViolation) (ledger : List DP) : SyncRun :=
  { trace := traceOf sot ledger, ledger := applyOps ledger (traceOf sot ledger) }

/-- Every violation of the authority dates its timestamp consistently: the
date field is the local calendar day of the timestamp.  The extractor that
feeds the reconciler is meant to guarantee this. -/

def wfSot (sot : List SotViolation) : Bool :=
  sot.all (fun v => v.date == dayOf v.timestamp)

/-- The convergence target: every ledger entry belongs to an authoritative
date and agrees with the authority up to the 1-second timestamp tolerance,
and every authoritative date owns exactly one ledger entry. -/

def ledgerMatches (m : List (Nat × SotViolation)) (l : List DP) : Bool :=
  l.all (fun e =>
    match alookup m (dayOf e.timestamp) with
    | some v => (max e.timestamp v.timestamp - min e.timestamp v.timestamp ≤ 1 : Bool)
        && e.value == v.value && e.comment == v.comment
    | none => false)
  && m.all (fun p => l.countP (fun e => dayOf e.timestamp == p.1) == 1)

/-- The pagination loop of BeeminderAPI.get_goal_datapoints in
sync_nightlogger.py lines 35-72: request pages of per_page entries; stop on
an empty page, or on a page shorter than per_page.  The server is modelled
as the full datapoint list, page k holding entries (k-1)*P .. k*P-1.  The
result is the accumulated list and the number of list calls issued. -/

def fetchPagesShort (P : Nat) (server : List DP) : List DP × Nat :=
  if h1 : server.take P = [] then ([], 1)
  else if h2 : (server.take P).length < P then (server.take P, 1)
  else
    (server.take P ++ (fetchPagesShort P (server.drop P)).1,
      (fetchPagesShort P (server.drop P)).2 + 1)
termination_by server.length
decreasing_by
  simp only [List.length_drop]
  have hP : P ≠ 0 := by
    intro h
    exact h1 (by simp [h])
  have hs : server ≠ [] := by
    intro h
    exact h1 (by simp [h])
  have : 0 < server.length := List.length_pos.mpr hs
  omega

/-- The pagination loop of BeeminderAPI.get_goal_datapoints in
sync_violations.py lines 24-57: identical, except that the loop only stops
on an empty page (there is no short-page break). -/

def fetchPagesAll (P : Nat) (server : List DP) : List DP × Nat :=
  if h1 : server.take P = [] then ([], 1)
  else
    (server.take P ++ (fetchPagesAll P (server.drop P)).1,
      (fetchPagesAll P (server.drop P)).2 + 1)
termination_by server.length
decreasing_by
  simp only [List.length_drop]
  have hP : P ≠ 0 := by
    intro h
    exact h1 (by simp [h])
  have hs : server ≠ [] := by
    intro h
    exact h1 (by simp [h])
  have : 0 < server.length := List.length_pos.mpr hs
  omega

/-- get_goal_datapoints with the hard-coded per_page = 300, sync_nightlogger
variant. -/

def getGoalDatapointsNL (server : List DP) : List DP × Nat := fetchPagesShort 300 server

/-- get_goal_datapoints with the hard-coded per_page = 300, sync_violations
variant. -/

def getGoalDatapointsSV (server : List DP) : List DP × Nat := fetchPagesAll 300 server

end BM

namespace NL

def p4Logs : List LogRow :=
  [⟨⟨⟨2025, 8, 15⟩, 6, 1214942⟩, true⟩,
   ⟨⟨⟨2025, 8, 15⟩, 6, 1313086⟩, true⟩,
   ⟨⟨⟨2025, 8, 16⟩, 23, 2198⟩, true⟩,
   ⟨⟨⟨2025, 8, 17⟩, 12, 0⟩, false⟩]

def p4Store : Store := ⟨p4Logs, []⟩

def s6Store : Store := ⟨[⟨⟨⟨2025, 8, 16⟩, 2, 0⟩, true⟩], []⟩

end NL

namespace BM

/-- Deletions-before-creations as a check on a call trace: after the
leading run of delete calls only create calls remain. -/

def delsBeforeCreates (ops : List Op) : Bool :=
  (ops.dropWhile isDeleteOp).all isCreateOp

end BM

def v15 : BM.SotViolation := ⟨20315, 1755224000, 1, "Night logger violation (2 detections)"⟩

def eStale : BM.DP := ⟨101, 1755216500, 2, "old"⟩

def eUnauth : BM.DP := ⟨102, 1755388900, 1, "x"⟩

def vTol : BM.SotViolation := ⟨20315, 1755217000, 1, "c"⟩

def eTol : BM.DP := ⟨7, 1755217001, 1, "c"⟩

def vBad : BM.SotViolation := ⟨1, 172900, 1, "b"⟩

def dTie1 : BM.DP := ⟨1, 1755238334, 1, "x"⟩

def dTie2 : BM.DP := ⟨2, 1755238334, 1, "x"⟩

def eT : BM.DP := ⟨11, 1755238334, 1, "x"⟩

def eT60 : BM.DP := ⟨12, 1755238394, 1, "x"⟩

def w1 : BM.SotViolation := ⟨20315, 1755216100, 1, "a"⟩

def w2 : BM.SotViolation := ⟨20316, 1755302500, 1, "b"⟩

def f1 : BM.DP := ⟨21, 1755221000, 1, "a"⟩

def f2 : BM.DP := ⟨22, 1755307400, 1, "b"⟩

def server300 : List BM.DP := List.replicate 300 ⟨1, 0, 1, "x"⟩

theorem alookup_eq_none {κ β : Type} [DecidableEq κ] (m : List (κ × β)) (k : κ) :
    alookup m k = none ↔ ∀ p ∈ m, p.1 ≠ k := by
  induction m with
  | nil => simp [alookup]
  | cons p r ih =>
    by_cases h : p.1 = k <;> simp [alookup, h, ih]

theorem alookup_mem {κ β : Type} [DecidableEq κ] (m : List (κ × β)) (k : κ) (v : β)
    (h : alookup m k = some v) : (k, v) ∈ m := by
  induction m with
  | nil => simp [alookup] at h
  | cons p r ih =>
    obtain ⟨a, b⟩ := p
    by_cases hk : a = k
    · subst hk
      simp [alookup] at h
      subst h
      exact List.mem_cons_self _ _
    · simp [alookup, hk] at h
      exact List.mem_cons_of_mem _ (ih h)

theorem alookup_of_mem_nodup {κ β : Type} [DecidableEq κ] (m : List (κ × β)) (k : κ) (v : β)
    (hnd : (m.map Prod.fst).Nodup) (hm : (k, v) ∈ m) : alookup m k = some v := by
  induction m with
  | nil => simp at hm
  | cons p r ih =>
    simp only [List.map_cons, List.nodup_cons] at hnd
    rcases List.mem_cons.mp hm with h | h
    · rw [← h]
      simp [alookup]
    · have hk : p.1 ≠ k := by
        intro he
        exact hnd.1 (he ▸ List.mem_map.mpr ⟨(k, v), h, rfl⟩)
      simp [alookup, hk]
      exact ih hnd.2 h

theorem alookup_dictInsert_self {κ β : Type} [DecidableEq κ] (m : List (κ × β)) (k : κ) (v : β) :
    alookup (dictInsert m k v) k = some v := by
  induction m with
  | nil => simp [dictInsert, alookup]
  | cons p r ih =>
    by_cases h : p.1 = k <;> simp [dictInsert, alookup, h, ih]

theorem alookup_dictInsert_ne {κ β : Type} [DecidableEq κ] (m : List (κ × β)) (k k' : κ) (v : β)
    (h : k ≠ k') : alookup (dictInsert m k v) k' = alookup m k' := by
  induction m with
  | nil =>
    simp [dictInsert, alookup, h]
  | cons p r ih =>
    by_cases hp : p.1 = k
    · simp [dictInsert, hp, alookup, Ne.symm h, h]
    · by_cases hp' : p.1 = k' <;> simp [dictInsert, hp, alookup, hp', ih, Ne.symm h]

theorem dictInsert_keys {κ β : Type} [DecidableEq κ] (m : List (κ × β)) (k : κ) (v : β) :
    (dictInsert m k v).map Prod.fst =
      (match alookup m k with
        | some _ => m.map Prod.fst
        | none => m.map Prod.fst ++ [k]) := by
  induction m with
  | nil => simp [dictInsert, alookup]
  | cons p r ih =>
    by_cases h : p.1 = k
    · simp [dictInsert, alookup, h]
    · simp only [dictInsert, if_neg h, alookup, List.map_cons, ih]
      cases alookup r k <;> simp

theorem dictInsert_keys_nodup {κ β : Type} [DecidableEq κ] (m : List (κ × β)) (k : κ) (v : β)
    (hnd : (m.map Prod.fst).Nodup) : ((dictInsert m k v).map Prod.fst).Nodup := by
  rw [dictInsert_keys]
  cases hl : alookup m k with
  | some w => exact hnd
  | none =>
    have hk : k ∉ m.map Prod.fst := by
      intro hc
      rcases List.mem_map.mp hc with ⟨p, hp, hpk⟩
      exact (alookup_eq_none m k).mp hl p hp hpk
    simp [List.nodup_append, hnd, hk]

theorem dictInsert_mem {κ β : Type} [DecidableEq κ] (m : List (κ × β)) (k : κ) (v : β)
    (p : κ × β) (hp : p ∈ dictInsert m k v) : p ∈ m ∨ p = (k, v) := by
  induction m with
  | nil => simpa [dictInsert] using hp
  | cons q r ih =>
    by_cases h : q.1 = k
    · simp only [dictInsert, if_pos h] at hp
      rcases List.mem_cons.mp hp with hc | hc
      · right; exact hc
      · left; exact List.mem_cons_of_mem _ hc
    · simp only [dictInsert, if_neg h] at hp
      rcases List.mem_cons.mp hp with hc | hc
      · left; exact hc ▸ List.mem_cons_self _ _
      · rcases ih hc with hd | hd
        · left; exact List.mem_cons_of_mem _ hd
        · right; exact hd

namespace NL

theorem daysInMonth_ge (y m : Nat) : 28 ≤ daysInMonth y m := by
  unfold daysInMonth
  split_ifs <;> simp_all

theorem prevDay_ne (d : Date) : prevDay d ≠ d := by
  unfold prevDay
  split_ifs with h1 h2 <;> intro hc
  · have := congrArg Date.day hc
    simp at this
    omega
  · have hd := congrArg Date.day hc
    have hm := congrArg Date.month hc
    simp at hd hm
    omega
  · have hd := congrArg Date.day hc
    simp at hd
    omega

theorem tsLe_total (a b : Ts) : tsLe a b = true ∨ tsLe b a = true := by
  obtain ⟨⟨ay, am, ad⟩, ah, as⟩ := a
  obtain ⟨⟨by_, bm, bd⟩, bh, bs⟩ := b
  simp [tsLe, tsLt, dateLt, Ts.mk.injEq, Date.mk.injEq]
  omega

theorem tsLe_trans (a b c : Ts) (h1 : tsLe a b = true) (h2 : tsLe b c = true) :
    tsLe a c = true := by
  obtain ⟨⟨ay, am, ad⟩, ah, as⟩ := a
  obtain ⟨⟨by_, bm, bd⟩, bh, bs⟩ := b
  obtain ⟨⟨cy, cm, cd⟩, ch, cs⟩ := c
  simp [tsLe, tsLt, dateLt, Ts.mk.injEq, Date.mk.injEq] at h1 h2 ⊢
  omega

theorem listMinTs_go (l : List Ts) (m : Ts) :
    ∃ r, l.foldl (fun acc t =>
        match acc with
        | none => some t
        | some m => if tsLe t m then some t else some m) (some m) = some r ∧
      (r = m ∨ r ∈ l) ∧ tsLe r m = true ∧ ∀ x ∈ l, tsLe r x = true := by
  induction l generalizing m with
  | nil => exact ⟨m, rfl, Or.inl rfl, by
      rcases tsLe_total m m with h | h <;> exact h, by simp⟩
  | cons t r ih =>
    by_cases h : tsLe t m = true
    · rcases ih t with ⟨w, hw, hmem, hle, hall⟩
      refine ⟨w, by simpa [h] using hw, ?_, tsLe_trans _ _ _ hle h, ?_⟩
      · rcases hmem with hm | hm
        · right; simp [hm]
        · right; exact List.mem_cons_of_mem _ hm
      · intro x hx
        rcases List.mem_cons.mp hx with hx | hx
        · exact hx ▸ hle
        · exact hall x hx
    · rcases ih m with ⟨w, hw, hmem, hle, hall⟩
      have h' : tsLe m t = true := by
        rcases tsLe_total t m with hc | hc
        · exact absurd hc h
        · exact hc
      refine ⟨w, by simpa [h] using hw, ?_, hle, ?_⟩
      · rcases hmem with hm | hm
        · left; exact hm
        · right; exact List.mem_cons_of_mem _ hm
      · intro x hx
        rcases List.mem_cons.mp hx with hx | hx
        · exact hx ▸ tsLe_trans _ _ _ hle h'
        · exact hall x hx

theorem listMinTs_spec (l : List Ts) (m : Ts) (h : listMinTs l = some m) :
    m ∈ l ∧ ∀ x ∈ l, tsLe m x = true := by
  cases l with
  | nil => simp [listMinTs] at h
  | cons t r =>
    rcases listMinTs_go r t with ⟨w, hw, hmem, hle, hall⟩
    have : listMinTs (t :: r) = some w := by
      simpa [listMinTs] using hw
    rw [this] at h
    obtain rfl : w = m := by simpa using h
    refine ⟨?_, ?_⟩
    · rcases hmem with hm | hm
      · simp [hm]
      · exact List.mem_cons_of_mem _ hm
    · intro x hx
      rcases List.mem_cons.mp hx with hx | hx
      · exact hx ▸ hle
      · exact hall x hx

theorem listMinTs_eq_none (l : List Ts) : listMinTs l = none ↔ l = [] := by
  cases l with
  | nil => simp [listMinTs]
  | cons t r =>
    rcases listMinTs_go r t with ⟨w, hw, _, _, _⟩
    constructor
    · intro h
      rw [show listMinTs (t :: r) = some w by simpa [listMinTs] using hw] at h
      cases h
    · intro h
      cases h

theorem mem_insertDesc (d x : Date) (l : List Date) :
    x ∈ insertDesc d l ↔ x = d ∨ x ∈ l := by
  induction l with
  | nil => simp [insertDesc]
  | cons y r ih =>
    by_cases h : dateLt y d <;> simp [insertDesc, h, ih] <;> tauto

theorem mem_sortDesc (x : Date) (l : List Date) : x ∈ sortDesc l ↔ x ∈ l := by
  induction l with
  | nil => simp [sortDesc]
  | cons y r ih =>
    simp only [sortDesc, List.foldr_cons] at ih ⊢
    rw [mem_insertDesc]
    simp [ih]

theorem nodup_insertDesc (d : Date) (l : List Date) (hd : d ∉ l) (hl : l.Nodup) :
    (insertDesc d l).Nodup := by
  induction l with
  | nil => simp [insertDesc]
  | cons y r ih =>
    simp only [List.nodup_cons] at hl
    simp only [List.mem_cons] at hd
    push_neg at hd
    by_cases h : dateLt y d
    · simp only [insertDesc, if_pos h]
      refine List.nodup_cons.mpr ⟨?_, List.nodup_cons.mpr ⟨hl.1, hl.2⟩⟩
      simp only [List.mem_cons]
      push_neg
      exact hd
    · simp only [insertDesc, if_neg h, List.nodup_cons]
      refine ⟨?_, ih hd.2 hl.2⟩
      rw [mem_insertDesc]
      push_neg
      exact ⟨fun he => hd.1 he.symm, hl.1⟩

theorem nodup_sortDesc (l : List Date) (h : l.Nodup) : (sortDesc l).Nodup := by
  induction l with
  | nil => simp [sortDesc]
  | cons y r ih =>
    simp only [List.nodup_cons] at h
    simp only [sortDesc, List.foldr_cons]
    refine nodup_insertDesc _ _ ?_ (ih h.2)
    rw [show (List.foldr insertDesc [] r) = sortDesc r from rfl, mem_sortDesc]
    exact h.1

theorem mem_insertAsc (d x : Date) (l : List Date) :
    x ∈ insertAsc d l ↔ x = d ∨ x ∈ l := by
  induction l with
  | nil => simp [insertAsc]
  | cons y r ih =>
    by_cases h : dateLt d y <;> simp [insertAsc, h, ih] <;> tauto

theorem mem_sortAsc (x : Date) (l : List Date) : x ∈ sortAsc l ↔ x ∈ l := by
  induction l with
  | nil => simp [sortAsc]
  | cons y r ih =>
    simp only [sortAsc, List.foldr_cons] at ih ⊢
    rw [mem_insertAsc]
    simp [ih]

theorem dedupDates_go (l acc : List Date) :
    (∀ x, x ∈ l.foldl (fun acc d => if d ∈ acc then acc else acc ++ [d]) acc ↔
        x ∈ acc ∨ x ∈ l) ∧
      (acc.Nodup → (l.foldl (fun acc d => if d ∈ acc then acc else acc ++ [d]) acc).Nodup) := by
  induction l generalizing acc with
  | nil => simp
  | cons d r ih =>
    by_cases h : d ∈ acc
    · simp only [List.foldl_cons, if_pos h]
      refine ⟨fun x => ?_, (ih acc).2⟩
      rw [(ih acc).1 x]
      simp only [List.mem_cons]
      constructor
      · tauto
      · rintro (hx | hx | hx)
        · tauto
        · subst hx; tauto
        · tauto
    · simp only [List.foldl_cons, if_neg h]
      refine ⟨fun x => ?_, fun hnd => (ih (acc ++ [d])).2 ?_⟩
      · rw [(ih (acc ++ [d])).1 x]
        simp only [List.mem_append, List.mem_singleton, List.mem_cons]
        tauto
      · simp [List.nodup_append, hnd, h]

theorem mem_dedupDates (x : Date) (l : List Date) : x ∈ dedupDates l ↔ x ∈ l := by
  rw [show dedupDates l = l.foldl (fun acc d => if d ∈ acc then acc else acc ++ [d]) [] from rfl,
    (dedupDates_go l []).1 x]
  simp

theorem nodup_dedupDates (l : List Date) : (dedupDates l).Nodup :=
  (dedupDates_go l []).2 List.nodup_nil

end NL

namespace BM

theorem fetchPagesShort_eq (P : Nat) (server : List DP) :
    fetchPagesShort P server =
      if server.take P = [] then ([], 1)
      else if (server.take P).length < P then (server.take P, 1)
      else (server.take P ++ (fetchPagesShort P (server.drop P)).1,
        (fetchPagesShort P (server.drop P)).2 + 1) := by
  rw [fetchPagesShort]
  simp only [dite_eq_ite]

theorem fetchPagesAll_eq (P : Nat) (server : List DP) :
    fetchPagesAll P server =
      if server.take P = [] then ([], 1)
      else (server.take P ++ (fetchPagesAll P (server.drop P)).1,
        (fetchPagesAll P (server.drop P)).2 + 1) := by
  rw [fetchPagesAll]
  simp only [dite_eq_ite]

theorem fetchPagesShort_spec (P : Nat) (hP : 0 < P) : ∀ (n : Nat) (server : List DP),
    server.length ≤ n →
    (fetchPagesShort P server).1 = server ∧
      (fetchPagesShort P server).2 = server.length / P + 1 := by
  intro n
  induction n with
  | zero =>
    intro server hlen
    have hs : server = [] := List.eq_nil_of_length_eq_zero (Nat.le_zero.mp hlen)
    subst hs
    rw [fetchPagesShort_eq]
    simp
  | succ n ih =>
    intro server hlen
    rw [fetchPagesShort_eq]
    by_cases h1 : server.take P = []
    · have hs : server = [] := by
        rcases List.take_eq_nil_iff.mp h1 with h | h
        · omega
        · exact h
      subst hs
      simp
    · rw [if_neg h1]
      by_cases h2 : (server.take P).length < P
      · have hlt : server.length < P := by
          rw [List.length_take] at h2
          omega
        have htake : server.take P = server := List.take_of_length_le (Nat.le_of_lt hlt)
        rw [if_pos h2, htake]
        exact ⟨rfl, by simp [Nat.div_eq_of_lt hlt]⟩
      · have hge : P ≤ server.length := by
          rw [List.length_take] at h2
          omega
        have hrec := ih (server.drop P) (by
          rw [List.length_drop]
          omega)
        rw [if_neg h2]
        refine ⟨by simp [hrec.1, List.take_append_drop], ?_⟩
        simp only [hrec.2, List.length_drop]
        rw [Nat.div_eq_sub_div hP hge]

theorem fetchPagesAll_spec (P : Nat) (hP : 0 < P) : ∀ (n : Nat) (server : List DP),
    server.length ≤ n →
    (fetchPagesAll P server).1 = server ∧
      (fetchPagesAll P server).2 =
        (if server.length = 0 then 1 else (server.length - 1) / P + 2) := by
  intro n
  induction n with
  | zero =>
    intro server hlen
    have hs : server = [] := List.eq_nil_of_length_eq_zero (Nat.le_zero.mp hlen)
    subst hs
    rw [fetchPagesAll_eq]
    simp
  | succ n ih =>
    intro server hlen
    rw [fetchPagesAll_eq]
    by_cases h1 : server.take P = []
    · have hs : server = [] := by
        rcases List.take_eq_nil_iff.mp h1 with h | h
        · omega
        · exact h
      subst hs
      simp
    · have hs : server ≠ [] := by
        intro h
        exact h1 (by simp [h])
      have hpos : 0 < server.length := List.length_pos.mpr hs
      have hrec := ih (server.drop P) (by
        rw [List.length_drop]
        omega)
      rw [if_neg h1]
      refine ⟨by simp [hrec.1, List.take_append_drop], ?_⟩
      simp only [hrec.2, List.length_drop]
      rw [if_neg (by omega : ¬ server.length = 0)]
      by_cases hcase : server.length ≤ P
      · have hz : server.length - P = 0 := by omega
        rw [hz, if_pos rfl]
        have hq : (server.length - 1) / P = 0 := Nat.div_eq_of_lt (by omega)
        omega
      · have hne : server.length - P ≠ 0 := by omega
        rw [if_neg hne]
        have hq : (server.length - 1) / P = (server.length - P - 1) / P + 1 := by
          have h1' : P ≤ server.length - 1 := by omega
          have h2' : server.length - 1 - P = server.length - P - 1 := by omega
          rw [Nat.div_eq_sub_div hP h1', h2']
        omega

theorem dedupScan_append (l : List DP) (x : DP) :
    dedupScan (l ++ [x]) = dedupStep (dedupScan l) x := by
  rw [dedupScan, List.foldl_append]
  rfl

theorem groupAtDay_append (l : List DP) (x : DP) (d : Nat) :
    groupAtDay (l ++ [x]) d =
      groupAtDay l d ++ (if dayOf x.timestamp = d then [x] else []) := by
  rw [groupAtDay, List.filter_append]
  by_cases h : dayOf x.timestamp = d <;> simp [groupAtDay, h]

theorem firstMaxTs_append_singleton (g : List DP) (x : DP) :
    firstMaxTs (g ++ [x]) =
      (match firstMaxTs g with
        | none => some x
        | some a => if x.timestamp > a.timestamp then some x else some a) := by
  rw [firstMaxTs, List.foldl_append]
  rfl

theorem firstMaxTs_go (g : List DP) (a : DP) :
    ∃ r, g.foldl (fun acc x =>
        match acc with
        | none => some x
        | some a => if x.timestamp > a.timestamp then some x else some a) (some a) = some r ∧
      (r = a ∨ r ∈ g) ∧ a.timestamp ≤ r.timestamp ∧ ∀ x ∈ g, x.timestamp ≤ r.timestamp := by
  induction g generalizing a with
  | nil => exact ⟨a, rfl, Or.inl rfl, le_refl _, by simp⟩
  | cons x rest ih =>
    by_cases h : x.timestamp > a.timestamp
    · rcases ih x with ⟨r, hr, hmem, hle, hall⟩
      refine ⟨r, by simpa [h] using hr, ?_, by omega, ?_⟩
      · rcases hmem with hm | hm
        · right; simp [hm]
        · right; exact List.mem_cons_of_mem _ hm
      · intro y hy
        rcases List.mem_cons.mp hy with hy | hy
        · subst hy; omega
        · exact hall y hy
    · rcases ih a with ⟨r, hr, hmem, hle, hall⟩
      refine ⟨r, by simpa [h] using hr, ?_, hle, ?_⟩
      · rcases hmem with hm | hm
        · left; exact hm
        · right; exact List.mem_cons_of_mem _ hm
      · intro y hy
        rcases List.mem_cons.mp hy with hy | hy
        · subst hy; omega
        · exact hall y hy

theorem firstMaxTs_mem (g : List DP) (e : DP) (h : firstMaxTs g = some e) :
    e ∈ g ∧ ∀ x ∈ g, x.timestamp ≤ e.timestamp := by
  cases g with
  | nil => cases h
  | cons x rest =>
    rcases firstMaxTs_go rest x with ⟨r, hr, hmem, hle, hall⟩
    have hfx : firstMaxTs (x :: rest) = some r := by
      simpa [firstMaxTs] using hr
    rw [hfx] at h
    obtain rfl : r = e := by simpa using h
    refine ⟨?_, ?_⟩
    · rcases hmem with hm | hm
      · simp [hm]
      · exact List.mem_cons_of_mem _ hm
    · intro y hy
      rcases List.mem_cons.mp hy with hy | hy
      · subst hy; exact hle
      · exact hall y hy

theorem firstMaxTs_eq_none (g : List DP) : firstMaxTs g = none ↔ g = [] := by
  cases g with
  | nil => simp [firstMaxTs]
  | cons x rest =>
    rcases firstMaxTs_go rest x with ⟨r, hr, _, _, _⟩
    constructor
    · intro h
      rw [show firstMaxTs (x :: rest) = some r by simpa [firstMaxTs] using hr] at h
      cases h
    · intro h
      cases h

theorem dedupMap_lookup : ∀ (l : List DP) (d : Nat),
    alookup (dedupMap l) d = firstMaxTs (groupAtDay l d) := by
  intro l
  induction l using List.reverseRecOn with
  | nil =>
    intro d
    simp [dedupMap, dedupScan, alookup, firstMaxTs, groupAtDay]
  | append_singleton l x ih =>
    intro d
    rw [show dedupMap (l ++ [x]) = (dedupStep (dedupScan l) x).1 by
      rw [dedupMap, dedupScan_append]]
    rw [groupAtDay_append]
    by_cases hd : dayOf x.timestamp = d
    · rw [if_pos hd, firstMaxTs_append_singleton]
      subst hd
      rw [← ih (dayOf x.timestamp)]
      cases hlk : alookup (dedupMap l) (dayOf x.timestamp) with
      | none =>
        simp only [dedupStep, show alookup (dedupScan l).1 (dayOf x.timestamp) = none from hlk]
        simp [alookup_dictInsert_self]
      | some a =>
        simp only [dedupStep, show alookup (dedupScan l).1 (dayOf x.timestamp) = some a from hlk]
        by_cases hgt : x.timestamp > a.timestamp
        · simp only [if_pos hgt]
          simp [alookup_dictInsert_self]
        · simp only [if_neg hgt]
          exact hlk
    · rw [if_neg hd, List.append_nil, ← ih d]
      cases hlk : alookup (dedupMap l) (dayOf x.timestamp) with
      | none =>
        simp only [dedupStep, show alookup (dedupScan l).1 (dayOf x.timestamp) = none from hlk]
        exact alookup_dictInsert_ne _ _ _ _ hd
      | some a =>
        simp only [dedupStep, show alookup (dedupScan l).1 (dayOf x.timestamp) = some a from hlk]
        by_cases hgt : x.timestamp > a.timestamp
        · simp only [if_pos hgt]
          exact alookup_dictInsert_ne _ _ _ _ hd
        · simp only [if_neg hgt]
          rfl

theorem dedupMap_values (l : List DP) (d : Nat) (e : DP)
    (h : alookup (dedupMap l) d = some e) : e ∈ l ∧ dayOf e.timestamp = d := by
  rw [dedupMap_lookup] at h
  have hm := (firstMaxTs_mem _ _ h).1
  rw [groupAtDay, List.mem_filter] at hm
  exact ⟨hm.1, by simpa using hm.2⟩

theorem dedupStep_none (st : List (Nat × DP) × List DP) (dp : DP)
    (h : alookup st.1 (dayOf dp.timestamp) = none) :
    dedupStep st dp = (dictInsert st.1 (dayOf dp.timestamp) dp, st.2) := by
  simp only [dedupStep, h]

theorem dedupStep_some_gt (st : List (Nat × DP) × List DP) (dp a : DP)
    (h : alookup st.1 (dayOf dp.timestamp) = some a) (hgt : dp.timestamp > a.timestamp) :
    dedupStep st dp = (dictInsert st.1 (dayOf dp.timestamp) dp, st.2 ++ [a]) := by
  simp only [dedupStep, h, if_pos hgt]

theorem dedupStep_some_le (st : List (Nat × DP) × List DP) (dp a : DP)
    (h : alookup st.1 (dayOf dp.timestamp) = some a) (hgt : ¬ dp.timestamp > a.timestamp) :
    dedupStep st dp = (st.1, st.2 ++ [dp]) := by
  simp only [dedupStep, h, if_neg hgt]

theorem dedupMap_append (l : List DP) (x : DP) :
    dedupMap (l ++ [x]) = (dedupStep (dedupScan l) x).1 := by
  rw [dedupMap, dedupScan_append]

theorem dedupDups_append (l : List DP) (x : DP) :
    dedupDups (l ++ [x]) = (dedupStep (dedupScan l) x).2 := by
  rw [dedupDups, dedupScan_append]

theorem dedupScan_fst (l : List DP) : (dedupScan l).1 = dedupMap l := rfl

theorem dedupDups_sub : ∀ (l : List DP), ∀ e ∈ dedupDups l, e ∈ l := by
  intro l
  induction l using List.reverseRecOn with
  | nil => simp [dedupDups, dedupScan]
  | append_singleton l x ih =>
    intro e he
    rw [dedupDups_append] at he
    cases hlk : alookup (dedupMap l) (dayOf x.timestamp) with
    | none =>
      rw [dedupStep_none _ _ (dedupScan_fst l ▸ hlk)] at he
      exact List.mem_append_left _ (ih e he)
    | some a =>
      by_cases hgt : x.timestamp > a.timestamp
      · rw [dedupStep_some_gt _ _ _ (dedupScan_fst l ▸ hlk) hgt] at he
        rcases List.mem_append.mp he with hc | hc
        · exact List.mem_append_left _ (ih e hc)
        · have : e = a := by simpa using hc
          subst this
          exact List.mem_append_left _ (dedupMap_values l (dayOf x.timestamp) e hlk).1
      · rw [dedupStep_some_le _ _ _ (dedupScan_fst l ▸ hlk) hgt] at he
        rcases List.mem_append.mp he with hc | hc
        · exact List.mem_append_left _ (ih e hc)
        · have : e = x := by simpa using hc
          subst this
          simp

theorem kept_or_dup : ∀ (l : List DP), ∀ e ∈ l,
    alookup (dedupMap l) (dayOf e.timestamp) = some e ∨ e ∈ dedupDups l := by
  intro l
  induction l using List.reverseRecOn with
  | nil => simp
  | append_singleton l x ih =>
    intro e he
    rw [dedupMap_append, dedupDups_append]
    rcases List.mem_append.mp he with hel | hex
    · rcases ih e hel with hk | hdup
      · by_cases hde : dayOf e.timestamp = dayOf x.timestamp
        · rw [hde] at hk
          by_cases hgt : x.timestamp > e.timestamp
          · rw [dedupStep_some_gt _ _ _ (dedupScan_fst l ▸ hk) hgt]
            right
            simp
          · rw [dedupStep_some_le _ _ _ (dedupScan_fst l ▸ hk) hgt]
            left
            rw [hde]
            exact hk
        · cases hlk : alookup (dedupMap l) (dayOf x.timestamp) with
          | none =>
            rw [dedupStep_none _ _ (dedupScan_fst l ▸ hlk)]
            left
            rw [dedupScan_fst, alookup_dictInsert_ne _ _ _ _ (fun hc => hde hc.symm)]
            exact hk
          | some a =>
            by_cases hgt : x.timestamp > a.timestamp
            · rw [dedupStep_some_gt _ _ _ (dedupScan_fst l ▸ hlk) hgt]
              left
              rw [dedupScan_fst, alookup_dictInsert_ne _ _ _ _ (fun hc => hde hc.symm)]
              exact hk
            · rw [dedupStep_some_le _ _ _ (dedupScan_fst l ▸ hlk) hgt]
              left
              exact hk
      · right
        cases hlk : alookup (dedupMap l) (dayOf x.timestamp) with
        | none =>
          rw [dedupStep_none _ _ (dedupScan_fst l ▸ hlk)]
          exact hdup
        | some a =>
          by_cases hgt : x.timestamp > a.timestamp
          · rw [dedupStep_some_gt _ _ _ (dedupScan_fst l ▸ hlk) hgt]
            exact List.mem_append_left _ hdup
          · rw [dedupStep_some_le _ _ _ (dedupScan_fst l ▸ hlk) hgt]
            exact List.mem_append_left _ hdup
    · have hx : e = x := by simpa using hex
      subst hx
      cases hlk : alookup (dedupMap l) (dayOf e.timestamp) with
      | none =>
        rw [dedupStep_none _ _ (dedupScan_fst l ▸ hlk)]
        left
        rw [dedupScan_fst]
        exact alookup_dictInsert_self _ _ _
      | some a =>
        by_cases hgt : e.timestamp > a.timestamp
        · rw [dedupStep_some_gt _ _ _ (dedupScan_fst l ▸ hlk) hgt]
          left
          rw [dedupScan_fst]
          exact alookup_dictInsert_self _ _ _
        · rw [dedupStep_some_le _ _ _ (dedupScan_fst l ▸ hlk) hgt]
          right
          simp

theorem mem_id_inj {l : List DP} (hnd : (l.map (fun e => e.id)).Nodup) {a b : DP}
    (ha : a ∈ l) (hb : b ∈ l) (hid : a.id = b.id) : a = b := by
  induction l with
  | nil => simp at ha
  | cons x r ih =>
    simp only [List.map_cons, List.nodup_cons] at hnd
    rcases List.mem_cons.mp ha with ha' | ha' <;> rcases List.mem_cons.mp hb with hb' | hb'
    · rw [ha', hb']
    · exfalso
      apply hnd.1
      rw [← ha', hid]
      exact List.mem_map.mpr ⟨b, hb', rfl⟩
    · exfalso
      apply hnd.1
      rw [← hb', ← hid]
      exact List.mem_map.mpr ⟨a, ha', rfl⟩
    · exact ih hnd.2 ha' hb'

theorem dups_not_kept : ∀ (l : List DP), (l.map (fun e => e.id)).Nodup →
    ∀ e ∈ dedupDups l, alookup (dedupMap l) (dayOf e.timestamp) ≠ some e := by
  intro l
  induction l using List.reverseRecOn with
  | nil =>
    intro _ e he
    simp [dedupDups, dedupScan] at he
  | append_singleton l x ih =>
    intro hnd e he
    have hndl : (l.map (fun e => e.id)).Nodup := by
      rw [List.map_append] at hnd
      exact (List.nodup_append.mp hnd).1
    have hxnotl : x ∉ l := by
      intro hc
      rw [List.map_append, List.nodup_append] at hnd
      exact hnd.2.2 (List.mem_map.mpr ⟨x, hc, rfl⟩) (by simp)
    rw [dedupMap_append]
    rw [dedupDups_append] at he
    cases hlk : alookup (dedupMap l) (dayOf x.timestamp) with
    | none =>
      rw [dedupStep_none _ _ (dedupScan_fst l ▸ hlk)] at he ⊢
      simp only [dedupScan_fst]
      by_cases hde : dayOf e.timestamp = dayOf x.timestamp
      · rw [hde, alookup_dictInsert_self]
        intro hc
        have hex : x = e := by simpa using hc
        exact hxnotl (hex ▸ dedupDups_sub l e he)
      · rw [alookup_dictInsert_ne _ _ _ _ (fun hc => hde hc.symm)]
        exact ih hndl e he
    | some a =>
      by_cases hgt : x.timestamp > a.timestamp
      · rw [dedupStep_some_gt _ _ _ (dedupScan_fst l ▸ hlk) hgt] at he ⊢
        simp only [dedupScan_fst]
        rcases List.mem_append.mp he with hold | hnew
        · by_cases hde : dayOf e.timestamp = dayOf x.timestamp
          · rw [hde, alookup_dictInsert_self]
            intro hc
            have hex : x = e := by simpa using hc
            exact hxnotl (hex ▸ dedupDups_sub l e hold)
          · rw [alookup_dictInsert_ne _ _ _ _ (fun hc => hde hc.symm)]
            exact ih hndl e hold
        · have hea : e = a := by simpa using hnew
          subst hea
          have hde : dayOf e.timestamp = dayOf x.timestamp :=
            (dedupMap_values l (dayOf x.timestamp) e hlk).2
          rw [hde, alookup_dictInsert_self]
          intro hc
          have hex : x = e := by simpa using hc
          exact hxnotl (hex ▸ (dedupMap_values l (dayOf x.timestamp) e hlk).1)
      · rw [dedupStep_some_le _ _ _ (dedupScan_fst l ▸ hlk) hgt] at he ⊢
        simp only [dedupScan_fst]
        rcases List.mem_append.mp he with hold | hnew
        · exact ih hndl e hold
        · have hex : e = x := by simpa using hnew
          subst hex
          rw [hlk]
          intro hc
          have hae : a = e := by simpa using hc
          subst hae
          exact hxnotl (dedupMap_values l (dayOf a.timestamp) a hlk).1

theorem dedupMap_keys_nodup : ∀ (l : List DP), ((dedupMap l).map Prod.fst).Nodup := by
  intro l
  induction l using List.reverseRecOn with
  | nil => simp [dedupMap, dedupScan]
  | append_singleton l x ih =>
    rw [dedupMap_append]
    cases hlk : alookup (dedupMap l) (dayOf x.timestamp) with
    | none =>
      rw [dedupStep_none _ _ (dedupScan_fst l ▸ hlk)]
      exact dictInsert_keys_nodup _ _ _ ih
    | some a =>
      by_cases hgt : x.timestamp > a.timestamp
      · rw [dedupStep_some_gt _ _ _ (dedupScan_fst l ▸ hlk) hgt]
        exact dictInsert_keys_nodup _ _ _ ih
      · rw [dedupStep_some_le _ _ _ (dedupScan_fst l ▸ hlk) hgt]
        exact ih

theorem mem_ledgerAfterDedup (ledger : List DP)
    (hnd : (ledger.map (fun e => e.id)).Nodup) (e : DP) :
    e ∈ ledgerAfterDedup ledger ↔ e ∈ ledger ∧ e ∉ dedupDups ledger := by
  rw [ledgerAfterDedup, List.mem_filter]
  constructor
  · rintro ⟨hel, hall⟩
    refine ⟨hel, fun hc => ?_⟩
    rw [List.all_eq_true] at hall
    have := hall e hc
    simp at this
  · rintro ⟨hel, hnotd⟩
    refine ⟨hel, ?_⟩
    rw [List.all_eq_true]
    intro x hx
    simp only [decide_eq_true_eq]
    intro hc
    exact hnotd (mem_id_inj hnd (dedupDups_sub _ x hx) hel hc ▸ hx)

theorem kept_iff (ledger : List DP) (hnd : (ledger.map (fun e => e.id)).Nodup) (e : DP) :
    e ∈ ledgerAfterDedup ledger ↔
      alookup (dedupMap ledger) (dayOf e.timestamp) = some e := by
  rw [mem_ledgerAfterDedup ledger hnd]
  constructor
  · rintro ⟨hel, hnotd⟩
    rcases kept_or_dup ledger e hel with hk | hd
    · exact hk
    · exact absurd hd hnotd
  · intro hk
    refine ⟨(dedupMap_values _ _ _ hk).1, fun hc => ?_⟩
    exact dups_not_kept ledger hnd e hc hk

theorem ledgerAfterDedup_sub (ledger : List DP) :
    ∀ e ∈ ledgerAfterDedup ledger, e ∈ ledger := by
  intro e he
  exact (List.mem_filter.mp he).1

theorem ledgerAfterDedup_ids_nodup (ledger : List DP)
    (hnd : (ledger.map (fun e => e.id)).Nodup) :
    ((ledgerAfterDedup ledger).map (fun e => e.id)).Nodup := by
  rw [ledgerAfterDedup]
  exact (List.Sublist.map _ (List.filter_sublist _)).nodup hnd

theorem buildByDate_append (l : List DP) (x : DP) :
    buildByDate (l ++ [x]) = dictInsert (buildByDate l) (dayOf x.timestamp) x := by
  rw [buildByDate, List.foldl_append]
  rfl

theorem buildByDate_lookup (l : List DP)
    (hinj : ∀ a ∈ l, ∀ b ∈ l, dayOf a.timestamp = dayOf b.timestamp → a = b)
    (d : Nat) (e : DP) :
    alookup (buildByDate l) d = some e ↔ e ∈ l ∧ dayOf e.timestamp = d := by
  induction l using List.reverseRecOn with
  | nil => simp [buildByDate, alookup]
  | append_singleton l x ih =>
    have hinjl : ∀ a ∈ l, ∀ b ∈ l, dayOf a.timestamp = dayOf b.timestamp → a = b := by
      intro a ha b hb
      exact hinj a (List.mem_append_left _ ha) b (List.mem_append_left _ hb)
    rw [buildByDate_append]
    by_cases hd : dayOf x.timestamp = d
    · rw [hd, alookup_dictInsert_self]
      constructor
      · intro hc
        have hex : x = e := by simpa using hc
        subst hex
        simp [hd]
      · rintro ⟨hel, hed⟩
        rcases List.mem_append.mp hel with hl | hx
        · have : e = x := hinj e (List.mem_append_left _ hl) x (by simp) (by rw [hed, hd])
          rw [this]
        · have : e = x := by simpa using hx
          rw [this]
    · rw [alookup_dictInsert_ne _ _ _ _ hd, ih hinjl]
      constructor
      · rintro ⟨hel, hed⟩
        exact ⟨List.mem_append_left _ hel, hed⟩
      · rintro ⟨hel, hed⟩
        rcases List.mem_append.mp hel with hl | hx
        · exact ⟨hl, hed⟩
        · exfalso
          have : e = x := by simpa using hx
          subst this
          exact hd hed

theorem buildByDate_keys_nodup (l : List DP) : ((buildByDate l).map Prod.fst).Nodup := by
  induction l using List.reverseRecOn with
  | nil => simp [buildByDate]
  | append_singleton l x ih =>
    rw [buildByDate_append]
    exact dictInsert_keys_nodup _ _ _ ih

theorem ledgerAfterDedup_dateInj (ledger : List DP)
    (hnd : (ledger.map (fun e => e.id)).Nodup) :
    ∀ a ∈ ledgerAfterDedup ledger, ∀ b ∈ ledgerAfterDedup ledger,
      dayOf a.timestamp = dayOf b.timestamp → a = b := by
  intro a ha b hb hab
  have hka := (kept_iff ledger hnd a).mp ha
  have hkb := (kept_iff ledger hnd b).mp hb
  rw [hab] at hka
  rw [hka] at hkb
  simpa using hkb

theorem ledgerAfterDedup_eq_self (ledger : List DP) (hdups : dedupDups ledger = []) :
    ledgerAfterDedup ledger = ledger := by
  rw [ledgerAfterDedup, hdups]
  simp

theorem byDate_interface (ledger : List DP)
    (hnd : (ledger.map (fun e => e.id)).Nodup) :
    (∀ (d : Nat) (e : DP), alookup (byDateOf ledger) d = some e ↔
        (e ∈ ledgerAfterDedup ledger ∧ dayOf e.timestamp = d)) ∧
      ((byDateOf ledger).map Prod.fst).Nodup := by
  rw [byDateOf]
  by_cases hdups : dedupDups ledger = []
  · rw [if_pos hdups]
    refine ⟨?_, dedupMap_keys_nodup ledger⟩
    intro d e
    constructor
    · intro h
      have hv := dedupMap_values ledger d e h
      refine ⟨?_, hv.2⟩
      rw [kept_iff ledger hnd, hv.2]
      exact h
    · rintro ⟨he, hd⟩
      rw [← hd]
      exact (kept_iff ledger hnd e).mp he
  · rw [if_neg hdups]
    exact ⟨fun d e => buildByDate_lookup _ (ledgerAfterDedup_dateInj ledger hnd) d e,
      buildByDate_keys_nodup _⟩

theorem sotMap_mem (sot : List SotViolation) :
    ∀ p ∈ buildSotMap sot, p.2 ∈ sot ∧ p.2.date = p.1 := by
  induction sot using List.reverseRecOn with
  | nil => simp [buildSotMap]
  | append_singleton sot v ih =>
    intro p hp
    rw [show buildSotMap (sot ++ [v]) = dictInsert (buildSotMap sot) v.date v by
      rw [buildSotMap, List.foldl_append]; rfl] at hp
    rcases dictInsert_mem _ _ _ p hp with hold | hnew
    · have := ih p hold
      exact ⟨List.mem_append_left _ this.1, this.2⟩
    · rw [hnew]
      simp

theorem sotMap_keys_nodup (sot : List SotViolation) :
    ((buildSotMap sot).map Prod.fst).Nodup := by
  induction sot using List.reverseRecOn with
  | nil => simp [buildSotMap]
  | append_singleton sot v ih =>
    rw [show buildSotMap (sot ++ [v]) = dictInsert (buildSotMap sot) v.date v by
      rw [buildSotMap, List.foldl_append]; rfl]
    exact dictInsert_keys_nodup _ _ _ ih

theorem sotMap_lookup_mem (sot : List SotViolation) (d : Nat) (v : SotViolation)
    (h : alookup (buildSotMap sot) d = some v) : v ∈ sot ∧ v.date = d := by
  have := sotMap_mem sot (d, v) (alookup_mem _ _ _ h)
  exact this

theorem applyOps_append (l : List DP) (t1 t2 : List Op) :
    applyOps l (t1 ++ t2) = applyOps (applyOps l t1) t2 := by
  rw [applyOps, List.foldl_append]
  rfl

theorem applyOps_deletes {α : Type} (f : α → Nat) (xs : List α) : ∀ (l : List DP),
    applyOps l (xs.map (fun x => Op.delete (f x))) =
      l.filter (fun e => xs.all (fun x => f x ≠ e.id)) := by
  induction xs with
  | nil =>
    intro l
    simp [applyOps]
  | cons x rest ih =>
    intro l
    rw [List.map_cons, show applyOps l (Op.delete (f x) :: rest.map (fun x => Op.delete (f x))) =
      applyOps (applyOp l (Op.delete (f x))) (rest.map (fun x => Op.delete (f x))) from rfl, ih]
    rw [applyOp, List.filter_filter]
    apply List.filter_congr
    intro e _
    by_cases h : e.id = f x
    · simp [h]
    · simp [h, Ne.symm h]

theorem applyOps_creates (cs : List DP) : ∀ (l : List DP),
    applyOps l (cs.map Op.create) = l ++ cs := by
  induction cs with
  | nil =>
    intro l
    simp [applyOps]
  | cons c rest ih =>
    intro l
    rw [List.map_cons, show applyOps l (Op.create c :: rest.map Op.create) =
      applyOps (applyOp l (Op.create c)) (rest.map Op.create) from rfl, ih]
    simp [applyOp]

theorem applyOps_updPairs (pairs : List (DP × DP)) : ∀ (s : List DP),
    (∀ q ∈ pairs, ∀ q' ∈ pairs, q.2.id ≠ q'.1.id) →
    applyOps s (pairs.flatMap (fun q => [Op.delete q.1.id, Op.create q.2])) =
      s.filter (fun e => pairs.all (fun q => e.id ≠ q.1.id)) ++ pairs.map Prod.snd := by
  induction pairs with
  | nil =>
    intro s _
    simp [applyOps]
  | cons q rest ih =>
    intro s hfresh
    have hfr : ∀ p ∈ rest, ∀ p' ∈ rest, p.2.id ≠ p'.1.id := by
      intro p hp p' hp'
      exact hfresh p (List.mem_cons_of_mem _ hp) p' (List.mem_cons_of_mem _ hp')
    rw [List.flatMap_cons, show applyOps s ([Op.delete q.1.id, Op.create q.2] ++
        rest.flatMap (fun q => [Op.delete q.1.id, Op.create q.2])) =
      applyOps (applyOps s [Op.delete q.1.id, Op.create q.2])
        (rest.flatMap (fun q => [Op.delete q.1.id, Op.create q.2])) from
        applyOps_append _ _ _]
    have hstep : applyOps s [Op.delete q.1.id, Op.create q.2] =
        s.filter (fun e => e.id ≠ q.1.id) ++ [q.2] := rfl
    rw [hstep, ih _ hfr, List.filter_append]
    have hq2 : (rest.all (fun p => q.2.id ≠ p.1.id)) = true := by
      rw [List.all_eq_true]
      intro p hp
      simp only [ne_eq, decide_eq_true_eq]
      exact hfresh q (List.mem_cons_self _ _) p (List.mem_cons_of_mem _ hp)
    have hsingle : List.filter (fun e => rest.all (fun p => e.id ≠ p.1.id)) [q.2] = [q.2] := by
      rw [List.filter_cons, if_pos hq2, List.filter_nil]
    rw [hsingle, List.filter_filter]
    rw [List.append_assoc]
    congr 1
    apply List.filter_congr
    intro e _
    simp only [List.all_cons, Bool.and_comm]

theorem maxId_mem (l : List DP) : ∀ e ∈ l, e.id ≤ maxId l := by
  have hgen : ∀ (l : List DP) (a : Nat), a ≤ l.foldl (fun a e => max a e.id) a ∧
      ∀ e ∈ l, e.id ≤ l.foldl (fun a e => max a e.id) a := by
    intro l
    induction l with
    | nil => simp
    | cons x r ih =>
      intro a
      rcases ih (max a x.id) with ⟨hb, hall⟩
      refine ⟨le_trans (le_max_left _ _) hb, ?_⟩
      intro e he
      rcases List.mem_cons.mp he with he | he
      · subst he
        exact le_trans (le_max_right a e.id) hb
      · exact hall e he
  intro e he
  exact (hgen l 0).2 e he

theorem assignUpd_mem : ∀ (pairs : List (DP × SotViolation)) (base : Nat)
    (q : DP × DP), q ∈ assignUpd base pairs →
    ∃ p ∈ pairs, ∃ i, base ≤ i ∧ q = (p.1, mkDP i p.2) := by
  intro pairs
  induction pairs with
  | nil =>
    intro base q hq
    simp [assignUpd] at hq
  | cons p rest ih =>
    intro base q hq
    obtain ⟨e, v⟩ := p
    rcases List.mem_cons.mp hq with hq | hq
    · exact ⟨(e, v), List.mem_cons_self _ _, base, le_refl _, hq⟩
    · rcases ih (base + 1) q hq with ⟨p', hp', i, hi, hqi⟩
      exact ⟨p', List.mem_cons_of_mem _ hp', i, by omega, hqi⟩

theorem assignNew_mem : ∀ (vs : List SotViolation) (base : Nat) (x : DP),
    x ∈ assignNew base vs → ∃ v ∈ vs, ∃ i, base ≤ i ∧ x = mkDP i v := by
  intro vs
  induction vs with
  | nil =>
    intro base x hx
    simp [assignNew] at hx
  | cons v rest ih =>
    intro base x hx
    rcases List.mem_cons.mp hx with hx | hx
    · exact ⟨v, List.mem_cons_self _ _, base, le_refl _, hx⟩
    · rcases ih (base + 1) x hx with ⟨v', hv', i, hi, hxi⟩
      exact ⟨v', List.mem_cons_of_mem _ hv', i, by omega, hxi⟩

theorem assignUpd_fst : ∀ (pairs : List (DP × SotViolation)) (base : Nat),
    (assignUpd base pairs).map Prod.fst = pairs.map Prod.fst := by
  intro pairs
  induction pairs with
  | nil => intro base; rfl
  | cons p rest ih =>
    intro base
    obtain ⟨e, v⟩ := p
    simp only [assignUpd, List.map_cons, ih]

theorem assignUpd_snd_bounds : ∀ (pairs : List (DP × SotViolation)) (base : Nat)
    (q : DP × DP), q ∈ assignUpd base pairs →
    base ≤ q.2.id ∧ q.2.id < base + pairs.length := by
  intro pairs
  induction pairs with
  | nil =>
    intro base q hq
    simp [assignUpd] at hq
  | cons p rest ih =>
    intro base q hq
    obtain ⟨e, v⟩ := p
    rcases List.mem_cons.mp hq with hq | hq
    · rw [hq]
      simp only [mkDP, List.length_cons]
      omega
    · have := ih (base + 1) q hq
      simp only [List.length_cons]
      omega

theorem assignNew_bounds : ∀ (vs : List SotViolation) (base : Nat) (x : DP),
    x ∈ assignNew base vs → base ≤ x.id ∧ x.id < base + vs.length := by
  intro vs
  induction vs with
  | nil =>
    intro base x hx
    simp [assignNew] at hx
  | cons v rest ih =>
    intro base x hx
    rcases List.mem_cons.mp hx with hx | hx
    · rw [hx]
      simp only [mkDP, List.length_cons]
      omega
    · have := ih (base + 1) x hx
      simp only [List.length_cons]
      omega

theorem assignUpd_snd_ids_nodup : ∀ (pairs : List (DP × SotViolation)) (base : Nat),
    (((assignUpd base pairs).map Prod.snd).map (fun x => x.id)).Nodup := by
  intro pairs
  induction pairs with
  | nil => intro base; simp [assignUpd]
  | cons p rest ih =>
    intro base
    obtain ⟨e, v⟩ := p
    simp only [assignUpd, List.map_cons, List.nodup_cons]
    refine ⟨?_, ih (base + 1)⟩
    intro hc
    rcases List.mem_map.mp hc with ⟨x, hx, hxe⟩
    rcases List.mem_map.mp hx with ⟨q, hq, hqx⟩
    have := assignUpd_snd_bounds rest (base + 1) q hq
    rw [hqx] at this
    rw [hxe] at this
    simp [mkDP] at this

theorem assignNew_ids_nodup : ∀ (vs : List SotViolation) (base : Nat),
    ((assignNew base vs).map (fun x => x.id)).Nodup := by
  intro vs
  induction vs with
  | nil => intro base; simp [assignNew]
  | cons v rest ih =>
    intro base
    simp only [assignNew, List.map_cons, List.nodup_cons]
    refine ⟨?_, ih (base + 1)⟩
    intro hc
    rcases List.mem_map.mp hc with ⟨x, hx, hxe⟩
    have := assignNew_bounds rest (base + 1) x hx
    rw [hxe] at this
    simp [mkDP] at this

theorem assignUpd_snd_countP (d : Nat) : ∀ (pairs : List (DP × SotViolation)) (base : Nat),
    ((assignUpd base pairs).map Prod.snd).countP (fun x => dayOf x.timestamp == d) =
      pairs.countP (fun p => dayOf p.2.timestamp == d) := by
  intro pairs
  induction pairs with
  | nil => intro base; rfl
  | cons p rest ih =>
    intro base
    obtain ⟨e, v⟩ := p
    simp only [assignUpd, List.map_cons, List.countP_cons, ih, mkDP]

theorem assignNew_countP (d : Nat) : ∀ (vs : List SotViolation) (base : Nat),
    (assignNew base vs).countP (fun x => dayOf x.timestamp == d) =
      vs.countP (fun v => dayOf v.timestamp == d) := by
  intro vs
  induction vs with
  | nil => intro base; rfl
  | cons v rest ih =>
    intro base
    simp only [assignNew, List.countP_cons, ih, mkDP]

theorem assignUpd_fst_mem (pairs : List (DP × SotViolation)) (base : Nat)
    (p : DP × SotViolation) (hp : p ∈ pairs) :
    ∃ q ∈ assignUpd base pairs, q.1 = p.1 := by
  have h1 : p.1 ∈ pairs.map Prod.fst := List.mem_map.mpr ⟨p, hp, rfl⟩
  rw [← assignUpd_fst pairs base] at h1
  rcases List.mem_map.mp h1 with ⟨q, hq, hq1⟩
  exact ⟨q, hq, hq1⟩

theorem updCheck_pos (sot : List SotViolation) (p : Nat × DP) (v : SotViolation)
    (h : alookup (buildSotMap sot) p.1 = some v) (hmm : mismatch p.2 v = true) :
    updCheck sot p = some (p.2, v) := by
  simp [updCheck, h, hmm]

theorem updCheck_neg (sot : List SotViolation) (p : Nat × DP) (v : SotViolation)
    (h : alookup (buildSotMap sot) p.1 = some v) (hmm : ¬ mismatch p.2 v = true) :
    updCheck sot p = none := by
  simp [updCheck, h, hmm]

theorem updCheck_absent (sot : List SotViolation) (p : Nat × DP)
    (h : alookup (buildSotMap sot) p.1 = none) : updCheck sot p = none := by
  simp [updCheck, h]

theorem updCheck_elim (sot : List SotViolation) (p : Nat × DP) (c : DP × SotViolation)
    (h : updCheck sot p = some c) :
    c.1 = p.2 ∧ alookup (buildSotMap sot) p.1 = some c.2 ∧ mismatch p.2 c.2 = true := by
  cases hlks : alookup (buildSotMap sot) p.1 with
  | none => rw [updCheck_absent sot p hlks] at h; cases h
  | some v =>
    by_cases hmm : mismatch p.2 v = true
    · rw [updCheck_pos sot p v hlks hmm] at h
      have hc : c = (p.2, v) := (Option.some.inj h).symm
      rw [hc]
      exact ⟨rfl, rfl, hmm⟩
    · rw [updCheck_neg sot p v hlks hmm] at h
      cases h

theorem toUpdate_fst_in_lad (sot : List SotViolation) (ledger : List DP)
    (hnd : (ledger.map (fun e => e.id)).Nodup) (x : DP) (v : SotViolation)
    (hx : (x, v) ∈ toUpdateOf sot ledger) :
    x ∈ ledgerAfterDedup ledger ∧
      alookup (buildSotMap sot) (dayOf x.timestamp) = some v ∧ mismatch x v = true := by
  rcases List.mem_filterMap.mp hx with ⟨p, hp, hpx⟩
  have hel := updCheck_elim sot p (x, v) hpx
  have hpe : p.2 = x := hel.1.symm
  have hbd : alookup (byDateOf ledger) p.1 = some p.2 :=
    alookup_of_mem_nodup _ _ _ (byDate_interface ledger hnd).2 hp
  have hint := ((byDate_interface ledger hnd).1 p.1 p.2).mp hbd
  refine ⟨hpe ▸ hint.1, ?_, by rw [← hpe]; exact hel.2.2⟩
  rw [← hpe, hint.2]
  exact hel.2.1

theorem toDelete_elim (sot : List SotViolation) (ledger : List DP)
    (hnd : (ledger.map (fun e => e.id)).Nodup) (p : Nat × DP)
    (hp : p ∈ toDeleteOf sot ledger) :
    p.2 ∈ ledgerAfterDedup ledger ∧ dayOf p.2.timestamp = p.1 ∧
      alookup (buildSotMap sot) p.1 = none := by
  rw [toDeleteOf, List.mem_filter] at hp
  have hbd : alookup (byDateOf ledger) p.1 = some p.2 :=
    alookup_of_mem_nodup _ _ _ (byDate_interface ledger hnd).2 hp.1
  have hint := ((byDate_interface ledger hnd).1 p.1 p.2).mp hbd
  exact ⟨hint.1, hint.2, by simpa using hp.2⟩

theorem runSync_ledger_eq (sot : List SotViolation) (ledger : List DP)
    (hnd : (ledger.map (fun e => e.id)).Nodup) :
    (runSync sot ledger).ledger =
      (ledgerAfterDedup ledger).filter (fun e =>
          (toDeleteOf sot ledger).all (fun p => p.2.id ≠ e.id) &&
          (updNewsOf sot ledger).all (fun q => e.id ≠ q.1.id))
        ++ (updNewsOf sot ledger).map Prod.snd ++ crNewsOf sot ledger := by
  have hA : applyOps ledger ((dedupDups ledger).map (fun e => Op.delete e.id)) =
      ledgerAfterDedup ledger :=
    applyOps_deletes (fun e => e.id) (dedupDups ledger) ledger
  have hB : applyOps (ledgerAfterDedup ledger)
      ((toDeleteOf sot ledger).map (fun p => Op.delete p.2.id)) =
      (ledgerAfterDedup ledger).filter
        (fun e => (toDeleteOf sot ledger).all (fun p => p.2.id ≠ e.id)) :=
    applyOps_deletes (fun p => p.2.id) (toDeleteOf sot ledger) (ledgerAfterDedup ledger)
  have hfresh : ∀ q ∈ updNewsOf sot ledger, ∀ q' ∈ updNewsOf sot ledger,
      q.2.id ≠ q'.1.id := by
    intro q hq q' hq'
    rcases assignUpd_mem _ _ q hq with ⟨p, hp, i, hi, hqe⟩
    rcases assignUpd_mem _ _ q' hq' with ⟨p', hp', i', hi', hqe'⟩
    have hq2 : q.2.id = i := by rw [hqe]; rfl
    have hq1 : q'.1 = p'.1 := by rw [hqe']
    obtain ⟨e', v'⟩ := p'
    have hlad : e' ∈ ledgerAfterDedup ledger := (toUpdate_fst_in_lad sot ledger hnd e' v' hp').1
    have hle : e'.id ≤ maxId ledger := maxId_mem ledger e' (ledgerAfterDedup_sub ledger e' hlad)
    rw [hq2, hq1]
    simp only
    omega
  have hC := applyOps_updPairs (updNewsOf sot ledger)
    ((ledgerAfterDedup ledger).filter
      (fun e => (toDeleteOf sot ledger).all (fun p => p.2.id ≠ e.id))) hfresh
  show applyOps ledger (traceOf sot ledger) = _
  rw [traceOf, applyOps_append, applyOps_append, applyOps_append, hA, hB, hC,
    applyOps_creates, List.filter_filter]
  congr 2
  apply List.filter_congr
  intro e _
  rw [Bool.and_comm]

theorem countP_one_of_unique {α : Type} (l : List α) (p : α → Bool) (e : α)
    (hnd : l.Nodup) (he : e ∈ l) (hp : p e = true)
    (hu : ∀ x ∈ l, p x = true → x = e) : l.countP p = 1 := by
  induction l with
  | nil => simp at he
  | cons x r ih =>
    simp only [List.nodup_cons] at hnd
    rw [List.countP_cons]
    rcases List.mem_cons.mp he with he' | he'
    · subst he'
      have h0 : r.countP p = 0 := by
        rw [List.countP_eq_zero]
        intro a ha hpa
        exact hnd.1 (hu a (List.mem_cons_of_mem _ ha) hpa ▸ ha)
      simp [h0, hp]
    · have hx : p x = false := by
        by_cases hc : p x = true
        · exact absurd ((hu x (List.mem_cons_self _ _) hc) ▸ hnd.1) (fun h => h he')
        · simpa using hc
      rw [ih hnd.2 he' (fun a ha hpa => hu a (List.mem_cons_of_mem _ ha) hpa)]
      simp [hx]

theorem countP_filterMap_keyed {κ β γ : Type} [DecidableEq κ]
    (g : κ × β → Option γ) (key : γ → κ) :
    ∀ (m : List (κ × β)), ((m.map Prod.fst).Nodup) →
    (∀ p ∈ m, ∀ c, g p = some c → key c = p.1) →
    ∀ (d : κ),
    (m.filterMap g).countP (fun c => key c == d) =
      (match alookup m d with
        | some b => if (g (d, b)).isSome then 1 else 0
        | none => 0) := by
  intro m
  induction m with
  | nil =>
    intro _ _ d
    simp [alookup]
  | cons p r ih =>
    intro hnd hkey d
    simp only [List.map_cons, List.nodup_cons] at hnd
    have hkr : ∀ q ∈ r, ∀ c, g q = some c → key c = q.1 :=
      fun q hq => hkey q (List.mem_cons_of_mem _ hq)
    rw [List.filterMap_cons]
    by_cases hpd : p.1 = d
    · have hlk : alookup (p :: r) d = some p.2 := by
        simp [alookup, hpd]
      have hrd : alookup r d = none := by
        rw [alookup_eq_none]
        intro q hq hqd
        apply hnd.1
        rw [hpd, ← hqd]
        exact List.mem_map.mpr ⟨q, hq, rfl⟩
      rw [hlk]
      have hrcount := ih hnd.2 hkr d
      rw [hrd] at hrcount
      cases hgp : g p with
      | none =>
        rw [hrcount]
        have : g (d, p.2) = none := by
          obtain ⟨pk, pb⟩ := p
          simp only at hpd
          rw [← hpd]
          exact hgp
        simp [this]
      | some c =>
        rw [List.countP_cons, hrcount]
        have hkc : key c = d := hpd ▸ hkey p (List.mem_cons_self _ _) c hgp
        have : g (d, p.2) = some c := by
          obtain ⟨pk, pb⟩ := p
          simp only at hpd
          rw [← hpd]
          exact hgp
        simp [this, hkc]
    · have hlk : alookup (p :: r) d = alookup r d := by
        simp [alookup, hpd]
      rw [hlk]
      have hrcount := ih hnd.2 hkr d
      cases hgp : g p with
      | none => exact hrcount
      | some c =>
        rw [List.countP_cons, hrcount]
        have hkc : key c = p.1 := hkey p (List.mem_cons_self _ _) c hgp
        have hne : (key c == d) = false := by
          rw [hkc]
          simpa using hpd
        simp [hne]

theorem mismatch_false_iff (e : DP) (v : SotViolation) :
    mismatch e v = false ↔
      (max e.timestamp v.timestamp - min e.timestamp v.timestamp ≤ 1) ∧
        e.value = v.value ∧ e.comment = v.comment := by
  rw [mismatch]
  simp only [Bool.or_eq_false_iff, decide_eq_false_iff_not, not_lt, ne_eq,
    Decidable.not_not]
  constructor
  · rintro ⟨⟨h1, h2⟩, h3⟩
    exact ⟨h1, h2, h3⟩
  · rintro ⟨h1, h2, h3⟩
    exact ⟨⟨h1, h2⟩, h3⟩

theorem countP_filter_keyed {κ β : Type} [DecidableEq κ]
    (pr : κ × β → Bool) (key : κ × β → κ) :
    ∀ (m : List (κ × β)), ((m.map Prod.fst).Nodup) →
    (∀ p ∈ m, key p = p.1) →
    ∀ (d : κ),
    (m.filter pr).countP (fun c => key c == d) =
      (match alookup m d with
        | some b => if pr (d, b) then 1 else 0
        | none => 0) := by
  intro m
  induction m with
  | nil =>
    intro _ _ d
    simp [alookup]
  | cons p r ih =>
    intro hnd hkey d
    simp only [List.map_cons, List.nodup_cons] at hnd
    have hkr : ∀ q ∈ r, key q = q.1 := fun q hq => hkey q (List.mem_cons_of_mem _ hq)
    rw [List.filter_cons]
    by_cases hpd : p.1 = d
    · have hlk : alookup (p :: r) d = some p.2 := by
        simp [alookup, hpd]
      have hrd : alookup r d = none := by
        rw [alookup_eq_none]
        intro q hq hqd
        apply hnd.1
        rw [hpd, ← hqd]
        exact List.mem_map.mpr ⟨q, hq, rfl⟩
      rw [hlk]
      have hrcount := ih hnd.2 hkr d
      rw [hrd] at hrcount
      have hpdv : (d, p.2) = p := by
        obtain ⟨pk, pb⟩ := p
        simp only at hpd
        rw [hpd]
      by_cases hpr : pr p = true
      · rw [if_pos hpr, List.countP_cons, hrcount]
        have hkd : (key p == d) = true := by
          rw [hkey p (List.mem_cons_self _ _), hpd]
          simp
        simp [hpdv, hpr, hkd]
      · rw [if_neg hpr, hrcount]
        simp [hpdv, hpr]
    · have hlk : alookup (p :: r) d = alookup r d := by
        simp [alookup, hpd]
      rw [hlk]
      have hrcount := ih hnd.2 hkr d
      by_cases hpr : pr p = true
      · rw [if_pos hpr, List.countP_cons, hrcount]
        have hkd : (key p == d) = false := by
          rw [hkey p (List.mem_cons_self _ _)]
          simpa using hpd
        simp [hkd]
      · rw [if_neg hpr, hrcount]

theorem toUpdate_intro (sot : List SotViolation) (ledger : List DP) (d : Nat)
    (e : DP) (v : SotViolation) (hbd : alookup (byDateOf ledger) d = some e)
    (hm : alookup (buildSotMap sot) d = some v) (hmm : mismatch e v = true) :
    (e, v) ∈ toUpdateOf sot ledger := by
  rw [toUpdateOf]
  apply List.mem_filterMap.mpr
  refine ⟨(d, e), alookup_mem _ _ _ hbd, ?_⟩
  exact updCheck_pos sot (d, e) v hm hmm

theorem toDelete_intro (sot : List SotViolation) (ledger : List DP) (d : Nat)
    (e : DP) (hbd : alookup (byDateOf ledger) d = some e)
    (hm : alookup (buildSotMap sot) d = none) :
    (d, e) ∈ toDeleteOf sot ledger := by
  rw [toDeleteOf, List.mem_filter]
  exact ⟨alookup_mem _ _ _ hbd, by simp [hm]⟩

theorem wfSot_elim (sot : List SotViolation) (hwf : wfSot sot = true) :
    ∀ v ∈ sot, v.date = dayOf v.timestamp := by
  intro v hv
  have := (List.all_eq_true.mp hwf) v hv
  simpa using this

theorem sotMap_lookup_day (sot : List SotViolation) (hwf : wfSot sot = true)
    (d : Nat) (v : SotViolation) (h : alookup (buildSotMap sot) d = some v) :
    dayOf v.timestamp = d := by
  have hsm := sotMap_lookup_mem sot d v h
  rw [← hsm.2]
  exact (wfSot_elim sot hwf v hsm.1).symm

theorem runSync_entries_ok (sot : List SotViolation) (ledger : List DP)
    (hwf : wfSot sot = true) (hnd : (ledger.map (fun e => e.id)).Nodup) :
    ∀ e ∈ (runSync sot ledger).ledger,
      ∃ v, alookup (buildSotMap sot) (dayOf e.timestamp) = some v ∧
        (max e.timestamp v.timestamp - min e.timestamp v.timestamp ≤ 1) ∧
        e.value = v.value ∧ e.comment = v.comment := by
  intro e he
  have hint := byDate_interface ledger hnd
  rw [runSync_ledger_eq sot ledger hnd] at he
  rcases List.mem_append.mp he with he1 | hecr
  · rcases List.mem_append.mp he1 with hesurv | heupd
    · obtain ⟨helad, hepred⟩ := List.mem_filter.mp hesurv
      rw [Bool.and_eq_true] at hepred
      obtain ⟨hpredD, hpredU⟩ := hepred
      have hbd : alookup (byDateOf ledger) (dayOf e.timestamp) = some e :=
        (hint.1 (dayOf e.timestamp) e).mpr ⟨helad, rfl⟩
      cases hm : alookup (buildSotMap sot) (dayOf e.timestamp) with
      | none =>
        exfalso
        have hmemdel := toDelete_intro sot ledger (dayOf e.timestamp) e hbd hm
        have := (List.all_eq_true.mp hpredD) (dayOf e.timestamp, e) hmemdel
        simp at this
      | some v =>
        by_cases hmm : mismatch e v = true
        · exfalso
          have hmemupd := toUpdate_intro sot ledger (dayOf e.timestamp) e v hbd hm hmm
          rcases assignUpd_fst_mem _ (maxId ledger + 1) _ hmemupd with ⟨q, hq, hq1⟩
          have := (List.all_eq_true.mp hpredU) q hq
          rw [hq1] at this
          simp at this
        · have hmf : mismatch e v = false := Bool.not_eq_true _ ▸ (by simpa using hmm)
          obtain ⟨h1, h2, h3⟩ := (mismatch_false_iff e v).mp hmf
          exact ⟨v, rfl, h1, h2, h3⟩
    · rcases List.mem_map.mp heupd with ⟨q, hq, hqe⟩
      rcases assignUpd_mem _ _ q hq with ⟨p, hp, i, hi, hqq⟩
      obtain ⟨x, v⟩ := p
      have htu := toUpdate_fst_in_lad sot ledger hnd x v hp
      have hq2 : q.2 = mkDP i v := by rw [hqq]
      have hev : e = mkDP i v := by rw [← hqe, hq2]
      have hvd : dayOf v.timestamp = dayOf x.timestamp := by
        have := sotMap_lookup_day sot hwf (dayOf x.timestamp) v htu.2.1
        exact this
      refine ⟨v, ?_, ?_, ?_, ?_⟩
      · rw [hev]
        show alookup (buildSotMap sot) (dayOf v.timestamp) = some v
        rw [hvd]
        exact htu.2.1
      · rw [hev]
        simp [mkDP]
      · rw [hev]
        rfl
      · rw [hev]
        rfl
  · rcases assignNew_mem _ _ e hecr with ⟨v, hv, i, hi, hei⟩
    rcases List.mem_map.mp hv with ⟨p, hptc, hpv⟩
    rw [toCreateOf, List.mem_filter] at hptc
    have hsm := sotMap_mem sot p hptc.1
    have hlkp : alookup (buildSotMap sot) p.1 = some p.2 :=
      alookup_of_mem_nodup _ _ _ (sotMap_keys_nodup sot) hptc.1
    have hvday : dayOf v.timestamp = p.1 := by
      rw [← hpv, ← hsm.2]
      exact (wfSot_elim sot hwf p.2 hsm.1).symm
    refine ⟨v, ?_, ?_, ?_, ?_⟩
    · rw [hei]
      show alookup (buildSotMap sot) (dayOf v.timestamp) = some v
      rw [hvday, hlkp, hpv]
    · rw [hei]
      simp [mkDP]
    · rw [hei]
      rfl
    · rw [hei]
      rfl

theorem countP_map_comp {α β : Type} (f : α → β) (p : β → Bool) :
    ∀ (l : List α), (l.map f).countP p = l.countP (fun a => p (f a)) := by
  intro l
  induction l with
  | nil => rfl
  | cons x r ih =>
    rw [List.map_cons, List.countP_cons, List.countP_cons, ih]

theorem runSync_counts_ok (sot : List SotViolation) (ledger : List DP)
    (hwf : wfSot sot = true) (hnd : (ledger.map (fun e => e.id)).Nodup)
    (d : Nat) (v : SotViolation) (hmd : alookup (buildSotMap sot) d = some v) :
    ((runSync sot ledger).ledger).countP (fun e => dayOf e.timestamp == d) = 1 := by
  have hint := byDate_interface ledger hnd
  rw [runSync_ledger_eq sot ledger hnd, List.countP_append, List.countP_append]
  have hkeyC : ∀ p ∈ buildSotMap sot,
      (fun (c : Nat × SotViolation) => dayOf c.2.timestamp) p = p.1 := by
    intro p hp
    have hsm := sotMap_mem sot p hp
    show dayOf p.2.timestamp = p.1
    rw [← hsm.2]
    exact (wfSot_elim sot hwf p.2 hsm.1).symm
  have hCCraw := countP_filter_keyed
    (fun (p : Nat × SotViolation) => decide (alookup (byDateOf ledger) p.1 = none))
    (fun c => dayOf c.2.timestamp) (buildSotMap sot) (sotMap_keys_nodup sot) hkeyC d
  rw [hmd] at hCCraw
  have hCCeq : (crNewsOf sot ledger).countP (fun e => dayOf e.timestamp == d) =
      (toCreateOf sot ledger).countP (fun c => dayOf c.2.timestamp == d) := by
    rw [crNewsOf, assignNew_countP, countP_map_comp]
  have hkeyU : ∀ p ∈ byDateOf ledger, ∀ (c : DP × SotViolation),
      updCheck sot p = some c →
      (fun (c : DP × SotViolation) => dayOf c.2.timestamp) c = p.1 := by
    intro p _ c hc
    have hel := updCheck_elim sot p c hc
    show dayOf c.2.timestamp = p.1
    exact sotMap_lookup_day sot hwf p.1 c.2 hel.2.1
  have hCUraw := countP_filterMap_keyed (updCheck sot)
    (fun c => dayOf c.2.timestamp) (byDateOf ledger) hint.2 hkeyU d
  have hCUeq : ((updNewsOf sot ledger).map Prod.snd).countP
      (fun e => dayOf e.timestamp == d) =
      (toUpdateOf sot ledger).countP (fun c => dayOf c.2.timestamp == d) := by
    rw [updNewsOf, assignUpd_snd_countP]
  cases hbd : alookup (byDateOf ledger) d with
  | none =>
    have hCS : ((ledgerAfterDedup ledger).filter (fun e =>
        (toDeleteOf sot ledger).all (fun p => p.2.id ≠ e.id) &&
        (updNewsOf sot ledger).all (fun q => e.id ≠ q.1.id))).countP
        (fun e => dayOf e.timestamp == d) = 0 := by
      rw [List.countP_eq_zero]
      intro x hx
      have hxlad : x ∈ ledgerAfterDedup ledger := (List.mem_filter.mp hx).1
      simp only [beq_iff_eq]
      intro hxd
      have := (hint.1 d x).mpr ⟨hxlad, hxd⟩
      rw [hbd] at this
      cases this
    have hCU : (toUpdateOf sot ledger).countP (fun c => dayOf c.2.timestamp == d) = 0 := by
      rw [toUpdateOf, hCUraw, hbd]
    have hCC : (toCreateOf sot ledger).countP (fun c => dayOf c.2.timestamp == d) = 1 := by
      rw [show toCreateOf sot ledger = (buildSotMap sot).filter
        (fun p => decide (alookup (byDateOf ledger) p.1 = none)) from rfl, hCCraw]
      simp [hbd]
    rw [hCS, hCUeq, hCU, hCCeq, hCC]
  | some e0 =>
    have he0 := (hint.1 d e0).mp hbd
    have hCC : (toCreateOf sot ledger).countP (fun c => dayOf c.2.timestamp == d) = 0 := by
      rw [show toCreateOf sot ledger = (buildSotMap sot).filter
        (fun p => decide (alookup (byDateOf ledger) p.1 = none)) from rfl, hCCraw]
      simp [hbd]
    by_cases hmm : mismatch e0 v = true
    · have hCU : (toUpdateOf sot ledger).countP
          (fun c => dayOf c.2.timestamp == d) = 1 := by
        rw [toUpdateOf, hCUraw, hbd]
        simp [updCheck_pos sot (d, e0) v hmd hmm]
      have hq0 := assignUpd_fst_mem (toUpdateOf sot ledger) (maxId ledger + 1)
        (e0, v) (toUpdate_intro sot ledger d e0 v hbd hmd hmm)
      have hCS : ((ledgerAfterDedup ledger).filter (fun e =>
          (toDeleteOf sot ledger).all (fun p => p.2.id ≠ e.id) &&
          (updNewsOf sot ledger).all (fun q => e.id ≠ q.1.id))).countP
          (fun e => dayOf e.timestamp == d) = 0 := by
        rw [List.countP_eq_zero]
        intro x hx
        obtain ⟨hxlad, hxpred⟩ := List.mem_filter.mp hx
        simp only [beq_iff_eq]
        intro hxd
        have hxe0 : x = e0 := by
          have := (hint.1 d x).mpr ⟨hxlad, hxd⟩
          rw [hbd] at this
          simpa using this.symm
        rw [Bool.and_eq_true] at hxpred
        rcases hq0 with ⟨q, hq, hq1⟩
        have := (List.all_eq_true.mp hxpred.2) q hq
        rw [hq1, hxe0] at this
        simp at this
      rw [hCS, hCUeq, hCU, hCCeq, hCC]
    · have hCU : (toUpdateOf sot ledger).countP
          (fun c => dayOf c.2.timestamp == d) = 0 := by
        rw [toUpdateOf, hCUraw, hbd]
        simp [updCheck_neg sot (d, e0) v hmd hmm]
      have hpredK : ((toDeleteOf sot ledger).all (fun p => p.2.id ≠ e0.id) &&
          (updNewsOf sot ledger).all (fun q => e0.id ≠ q.1.id)) = true := by
        rw [Bool.and_eq_true]
        constructor
        · rw [List.all_eq_true]
          intro p' hp'
          have hde := toDelete_elim sot ledger hnd p' hp'
          simp only [ne_eq, decide_eq_true_eq]
          intro hc
          have hpe : p'.2 = e0 := mem_id_inj hnd
            (ledgerAfterDedup_sub ledger p'.2 hde.1)
            (ledgerAfterDedup_sub ledger e0 he0.1) hc
          have hp1 : p'.1 = d := by
            rw [← hde.2.1, hpe, he0.2]
          rw [hp1] at hde
          rw [hde.2.2] at hmd
          cases hmd
        · rw [List.all_eq_true]
          intro q hq
          rcases assignUpd_mem _ _ q hq with ⟨p, hp, i, hi, hqq⟩
          obtain ⟨x, v'⟩ := p
          have htu := toUpdate_fst_in_lad sot ledger hnd x v' hp
          simp only [ne_eq, decide_eq_true_eq]
          intro hc
          have hq1 : q.1 = x := by rw [hqq]
          rw [hq1] at hc
          have hxe0 : x = e0 := mem_id_inj hnd
            (ledgerAfterDedup_sub ledger x htu.1)
            (ledgerAfterDedup_sub ledger e0 he0.1) hc.symm
          rw [hxe0, he0.2] at htu
          have hvv : v' = v := by
            have := htu.2.1
            rw [hmd] at this
            simpa using this.symm
          rw [hvv] at htu
          exact hmm htu.2.2
      have hnodupf : ((ledgerAfterDedup ledger).filter (fun e =>
          (toDeleteOf sot ledger).all (fun p => p.2.id ≠ e.id) &&
          (updNewsOf sot ledger).all (fun q => e.id ≠ q.1.id))).Nodup := by
        have h1 : ledger.Nodup := List.Nodup.of_map _ hnd
        have h2 : (ledgerAfterDedup ledger).Nodup :=
          (List.filter_sublist ledger).nodup h1
        exact (List.filter_sublist _).nodup h2
      have hCS : ((ledgerAfterDedup ledger).filter (fun e =>
          (toDeleteOf sot ledger).all (fun p => p.2.id ≠ e.id) &&
          (updNewsOf sot ledger).all (fun q => e.id ≠ q.1.id))).countP
          (fun e => dayOf e.timestamp == d) = 1 := by
        apply countP_one_of_unique _ _ e0 hnodupf
        · exact List.mem_filter.mpr ⟨he0.1, hpredK⟩
        · simp [he0.2]
        · intro x hx hxd
          obtain ⟨hxlad, _⟩ := List.mem_filter.mp hx
          simp only [beq_iff_eq] at hxd
          have := (hint.1 d x).mpr ⟨hxlad, hxd⟩
          rw [hbd] at this
          simpa using this.symm
      rw [hCS, hCUeq, hCU, hCCeq, hCC]

end BM

theorem alookup_append {κ β : Type} [DecidableEq κ] (l1 l2 : List (κ × β)) (k : κ) :
    alookup (l1 ++ l2) k =
      (match alookup l1 k with
        | some v => some v
        | none => alookup l2 k) := by
  induction l1 with
  | nil => simp [alookup]
  | cons p r ih =>
    by_cases h : p.1 = k <;> simp [alookup, h, ih]

theorem alookup_countP {κ β : Type} [DecidableEq κ] (m : List (κ × β)) (k : κ)
    (hnd : (m.map Prod.fst).Nodup) :
    m.countP (fun p => p.1 == k) = (if (alookup m k).isSome then 1 else 0) := by
  induction m with
  | nil => simp [alookup]
  | cons p r ih =>
    simp only [List.map_cons, List.nodup_cons] at hnd
    rw [List.countP_cons]
    by_cases h : p.1 = k
    · have h0 : r.countP (fun p => p.1 == k) = 0 := by
        rw [List.countP_eq_zero]
        intro q hq
        simp only [beq_iff_eq]
        intro hqk
        apply hnd.1
        rw [h, ← hqk]
        exact List.mem_map.mpr ⟨q, hq, rfl⟩
      simp [alookup, h, h0]
    · simp [alookup, h, ih hnd.2]

namespace NL

theorem filterMap_filter_date (f : Date → Option Violation)
    (hf : ∀ k w, f k = some w → w.date = k) :
    ∀ (keys : List Date), keys.Nodup → ∀ (d : Date),
    ((keys.filterMap f).filter (fun v => v.date == d)).length =
      (if d ∈ keys ∧ (f d).isSome then 1 else 0) := by
  intro keys
  induction keys with
  | nil => simp
  | cons k r ih =>
    intro hnd d
    simp only [List.nodup_cons] at hnd
    rw [List.filterMap_cons]
    cases hfk : f k with
    | none =>
      rw [ih hnd.2 d]
      by_cases hkd : d = k
      · subst hkd
        simp [hfk, hnd.1]
      · simp only [List.mem_cons]
        by_cases hdr : d ∈ r <;> by_cases hsome : (f d).isSome <;>
          simp [hkd, hdr, hsome]
    | some w =>
      have hwk : w.date = k := hf k w hfk
      rw [List.filter_cons]
      by_cases hkd : d = k
      · subst hkd
        rw [if_pos (by simp [hwk])]
        simp only [List.length_cons, ih hnd.2 d]
        have hdr : ¬ d ∈ r := hwk ▸ hnd.1
        simp [hdr, hfk]
      · rw [if_neg (by simp [hwk, Ne.symm hkd])]
        rw [ih hnd.2 d]
        simp only [List.mem_cons]
        by_cases hdr : d ∈ r <;> by_cases hsome : (f d).isSome <;>
          simp [hkd, hdr, hsome]

theorem mkViolV2_date (s : Store) (k : Date) (w : Violation)
    (h : mkViolV2 s k = some w) : w.date = k := by
  rw [mkViolV2, Option.map_eq_some'] at h
  rcases h with ⟨ts, _, hw⟩
  rw [← hw]
  rfl

theorem keysV2_nodup (s : Store) : (keysV2 s).Nodup :=
  nodup_sortDesc _ (nodup_dedupDates _)

theorem mem_keysV2 (s : Store) (d : Date) : d ∈ keysV2 s ↔ attrGroup s.logs d ≠ [] := by
  rw [keysV2, mem_sortDesc, mem_dedupDates, List.mem_map]
  constructor
  · rintro ⟨r, hr, hrd⟩
    intro hg
    have : r ∈ attrGroup s.logs d := by
      simp [attrGroup, List.mem_filter, hr, hrd]
    rw [hg] at this
    simp at this
  · intro hg
    rcases List.exists_mem_of_ne_nil _ hg with ⟨r, hr⟩
    simp only [attrGroup, List.mem_filter] at hr
    exact ⟨r, hr.1, by simpa using hr.2⟩

theorem mkViolV2_isSome (s : Store) (d : Date) :
    (mkViolV2 s d).isSome ↔ attrGroup s.logs d ≠ [] := by
  rw [mkViolV2, Option.isSome_map', Option.isSome_iff_ne_none]
  rw [ne_eq, listMinTs_eq_none, List.map_eq_nil_iff]

theorem mkViolV3_date (s : Store) (k : Date) (w : Violation)
    (h : mkViolV3 s k = some w) : w.date = k := by
  rw [mkViolV3, Option.map_eq_some'] at h
  rcases h with ⟨ts, _, hw⟩
  rw [← hw]
  rfl

end NL

/-- Claim C10: in night_logger_github_fixed_v3's extractor the posts table
drives the output: every reported violation's date is a posted date, the
unposted_violations list is always the empty list, and a day absent from
the posted dates is never reported. -/

theorem claim_C10_theorem : ∀ (s : NL.Store),
    (NL.extractV3 s).unposted_violations = [] ∧
      (∀ v ∈ (NL.extractV3 s).violations, v.date ∈ (NL.extractV3 s).posted_dates) ∧
      (∀ d : NL.Date, d ∉ (NL.extractV3 s).posted_dates →
        ∀ v ∈ (NL.extractV3 s).violations, v.date ≠ d) := by
  intro s
  refine ⟨rfl, ?_, ?_⟩
  · intro v hv
    rcases List.mem_filterMap.mp hv with ⟨k, hk, hvk⟩
    rw [NL.mkViolV3_date s k v hvk]
    exact hk
  · intro d hd v hv he
    rcases List.mem_filterMap.mp hv with ⟨k, hk, hvk⟩
    rw [NL.mkViolV3_date s k v hvk] at he
    exact hd (he ▸ hk)

theorem claim_C10_witness :
    (NL.extractV3 ⟨NL.p4Logs, [(⟨2025, 8, 15⟩, ⟨⟨2025, 8, 15⟩, 6, 30⟩)]⟩).unposted_violations = []
      ∧ NL.Date.mk 2025 8 15 ∈
        (NL.extractV3 ⟨NL.p4Logs, [(⟨2025, 8, 15⟩, ⟨⟨2025, 8, 15⟩, 6, 30⟩)]⟩).posted_dates :=
  ⟨(claim_C10_theorem _).1,
    (claim_C10_theorem ⟨NL.p4Logs, [(⟨2025, 8, 15⟩, ⟨⟨2025, 8, 15⟩, 6, 30⟩)]⟩).2.1
      (NL.mkViolation ⟨2025, 8, 15⟩ ⟨⟨2025, 8, 15⟩, 6, 1214942⟩ 2) (by decide)⟩

/-- Claim C1, counterexample: the extractor of
night_logger_github_fixed_v3.py, named by the claim, returns no violation
at all on the P4 samples (its output is driven by the posts table, which
is empty here), so it does not yield the two claimed violations. -/

theorem claim_C1_counterexample :
    (NL.extractV3 NL.p4Store).violations = [] ∧
      (NL.extractV3 NL.p4Store).violations.length ≠ 2 := by
  decide

/-- Claim C1, amended: for the extractor of night_logger_github.py, each
attributed date with night samples yields exactly one violation whose
value is 1, whose comment carries the group size and whose timestamp is
the minimum logged_at of the group; on the P4 samples it yields exactly
the violations 2025-08-16 (count 1) and 2025-08-15 (count 2), in date
order descending. -/

theorem claim_C1_theorem :
    (∀ (s : NL.Store) (d : NL.Date),
        ((NL.extractV2 s).violations.filter (fun v => v.date == d)).length =
          (if NL.attrGroup s.logs d = [] then 0 else 1)) ∧
    (∀ (s : NL.Store) (v : NL.Violation), v ∈ (NL.extractV2 s).violations →
        v.value = 1 ∧ v.comment = NL.mkComment (NL.attrGroup s.logs v.date).length ∧
        v.timestamp ∈ (NL.attrGroup s.logs v.date).map (fun r => r.t) ∧
        ∀ x ∈ (NL.attrGroup s.logs v.date).map (fun r => r.t),
          NL.tsLe v.timestamp x = true) ∧
    (NL.extractV2 NL.p4Store).violations =
      [NL.mkViolation ⟨2025, 8, 16⟩ ⟨⟨2025, 8, 16⟩, 23, 2198⟩ 1,
       NL.mkViolation ⟨2025, 8, 15⟩ ⟨⟨2025, 8, 15⟩, 6, 1214942⟩ 2] := by
  refine ⟨?_, ?_, by decide⟩
  · intro s d
    show (((NL.keysV2 s).filterMap (NL.mkViolV2 s)).filter (fun v => v.date == d)).length = _
    rw [NL.filterMap_filter_date (NL.mkViolV2 s) (NL.mkViolV2_date s) (NL.keysV2 s)
      (NL.keysV2_nodup s) d]
    by_cases hg : NL.attrGroup s.logs d = []
    · rw [if_neg, if_pos hg]
      intro hc
      exact ((NL.mkViolV2_isSome s d).mp hc.2) hg
    · rw [if_pos, if_neg hg]
      exact ⟨(NL.mem_keysV2 s d).mpr hg, (NL.mkViolV2_isSome s d).mpr hg⟩
  · intro s v hv
    rcases List.mem_filterMap.mp hv with ⟨k, _, hvk⟩
    have hdate : v.date = k := NL.mkViolV2_date s k v hvk
    rw [NL.mkViolV2, Option.map_eq_some'] at hvk
    rcases hvk with ⟨m, hm, hv'⟩
    have hspec := NL.listMinTs_spec _ m hm
    subst hdate
    rw [← hv']
    exact ⟨rfl, rfl, hspec.1, hspec.2⟩

theorem claim_C1_witness :
    ((NL.extractV2 NL.p4Store).violations.filter
        (fun v => v.date == ⟨2025, 8, 15⟩)).length = 1 ∧
      (NL.mkViolation ⟨2025, 8, 16⟩ ⟨⟨2025, 8, 16⟩, 23, 2198⟩ 1).value = 1 := by
  constructor
  · rw [claim_C1_theorem.1 NL.p4Store ⟨2025, 8, 15⟩]
    decide
  · exact (claim_C1_theorem.2.1 NL.p4Store _ (by decide)).1

/-- Claim C6: the raw-date extractor of extract_violations.py and the
attributed-date extractor of night_logger_github.py disagree on a store
holding a single night sample at 2025-08-16 02:00, dating it 2025-08-16
and 2025-08-15 respectively, so the two strategies are not equivalent. -/

theorem claim_C6_theorem :
    ((NL.extractV1 NL.s6Store).violations.map (fun v => v.date) = [⟨2025, 8, 16⟩]) ∧
      ((NL.extractV2 NL.s6Store).violations.map (fun v => v.date) = [⟨2025, 8, 15⟩]) ∧
      (NL.extractV1 NL.s6Store).violations ≠ (NL.extractV2 NL.s6Store).violations := by
  decide

/-- Claim C7: for every night-time timestamp the attributed calendar
date is the previous day exactly when the hour is at most 3, and the
sample's own date otherwise; in particular 2025-09-22 02:30 attributes to
2025-09-21 and 2025-09-22 23:30 to 2025-09-22. -/

theorem claim_C7_theorem :
    (∀ t : NL.Ts, NL.isNight t = true →
        (NL.attributedDate t = NL.prevDay t.date ↔ t.hour ≤ 3)) ∧
      NL.attributedDate ⟨⟨2025, 9, 22⟩, 2, 300000⟩ = ⟨2025, 9, 21⟩ ∧
      NL.attributedDate ⟨⟨2025, 9, 22⟩, 23, 300000⟩ = ⟨2025, 9, 22⟩ := by
  refine ⟨?_, by decide, by decide⟩
  intro t _
  unfold NL.attributedDate
  by_cases h : t.hour ≤ 3
  · simp [h]
  · rw [if_neg h]
    constructor
    · intro hc
      exact absurd hc.symm (NL.prevDay_ne t.date)
    · intro hc
      exact absurd hc h

theorem claim_C7_witness :
    NL.isNight ⟨⟨2025, 9, 22⟩, 2, 300000⟩ = true ∧
      (NL.attributedDate ⟨⟨2025, 9, 22⟩, 2, 300000⟩ =
          NL.prevDay (NL.Ts.mk ⟨2025, 9, 22⟩ 2 300000).date ↔
        (NL.Ts.mk ⟨2025, 9, 22⟩ 2 300000).hour ≤ 3) :=
  ⟨by decide, claim_C7_theorem.1 ⟨⟨2025, 9, 22⟩, 2, 300000⟩ (by decide)⟩

/-- Claim C9: mark_posted_today is idempotent and keeps at most one
posts row per day: after marking a day there is exactly one row for it,
marking it again is a no-op rather than an error, and key uniqueness is
preserved. -/

theorem claim_C9_theorem :
    ∀ (posts : List (NL.Date × NL.Ts)) (d : NL.Date) (t1 t2 : NL.Ts),
      (posts.map Prod.fst).Nodup →
      ((NL.markPosted posts d t1).countP (fun p => p.1 == d) = 1) ∧
        NL.markPosted (NL.markPosted posts d t1) d t2 = NL.markPosted posts d t1 ∧
        ((NL.markPosted posts d t1).map Prod.fst).Nodup := by
  intro posts d t1 t2 hnd
  unfold NL.markPosted
  cases hl : alookup posts d with
  | some v =>
    simp only [hl, Option.isSome_some, if_pos]
    refine ⟨?_, by simp [hl], hnd⟩
    rw [alookup_countP posts d hnd, hl]
    simp
  | none =>
    have hkey : d ∉ posts.map Prod.fst := by
      intro hc
      rcases List.mem_map.mp hc with ⟨p, hp, hpk⟩
      exact (alookup_eq_none posts d).mp hl p hp hpk
    simp only [hl, Option.isSome_none, Bool.false_eq_true, if_false, if_neg]
    have hl2 : alookup (posts ++ [(d, t1)]) d = some t1 := by
      rw [alookup_append, hl]
      simp [alookup]
    refine ⟨?_, by simp [hl2], ?_⟩
    · rw [List.countP_append, alookup_countP posts d hnd, hl]
      simp
    · rw [List.map_append]
      simp only [List.map_cons, List.map_nil]
      rw [List.nodup_append]
      exact ⟨hnd, List.nodup_singleton d, by simpa using hkey⟩

theorem claim_C9_witness :
    ((NL.markPosted [] ⟨2025, 8, 15⟩ ⟨⟨2025, 8, 15⟩, 6, 0⟩).countP
        (fun p => p.1 == ⟨2025, 8, 15⟩) = 1) ∧
      NL.markPosted (NL.markPosted [] ⟨2025, 8, 15⟩ ⟨⟨2025, 8, 15⟩, 6, 0⟩) ⟨2025, 8, 15⟩
          ⟨⟨2025, 8, 15⟩, 7, 0⟩ =
        NL.markPosted [] ⟨2025, 8, 15⟩ ⟨⟨2025, 8, 15⟩, 6, 0⟩ :=
  ⟨(claim_C9_theorem [] ⟨2025, 8, 15⟩ ⟨⟨2025, 8, 15⟩, 6, 0⟩ ⟨⟨2025, 8, 15⟩, 7, 0⟩
      (by decide)).1,
    (claim_C9_theorem [] ⟨2025, 8, 15⟩ ⟨⟨2025, 8, 15⟩, 6, 0⟩ ⟨⟨2025, 8, 15⟩, 7, 0⟩
      (by decide)).2.1⟩

namespace BM

theorem runSync_matches (sot : List SotViolation) (ledger : List DP)
    (hwf : wfSot sot = true) (hnd : (ledger.map (fun e => e.id)).Nodup) :
    ledgerMatches (buildSotMap sot) (runSync sot ledger).ledger = true := by
  rw [ledgerMatches, Bool.and_eq_true]
  constructor
  · rw [List.all_eq_true]
    intro e he
    rcases runSync_entries_ok sot ledger hwf hnd e he with ⟨v, hv, h1, h2, h3⟩
    simp only [hv]
    simp [h1, h2, h3]
  · rw [List.all_eq_true]
    intro p hp
    have hlkp : alookup (buildSotMap sot) p.1 = some p.2 :=
      alookup_of_mem_nodup _ _ _ (sotMap_keys_nodup sot) hp
    have hc := runSync_counts_ok sot ledger hwf hnd p.1 p.2 hlkp
    simp [hc]

theorem runSync_ids_nodup (sot : List SotViolation) (ledger : List DP)
    (hnd : (ledger.map (fun e => e.id)).Nodup) :
    (((runSync sot ledger).ledger).map (fun e => e.id)).Nodup := by
  rw [runSync_ledger_eq sot ledger hnd, List.map_append, List.map_append]
  have hSle : ∀ i ∈ ((ledgerAfterDedup ledger).filter (fun e =>
      (toDeleteOf sot ledger).all (fun p => p.2.id ≠ e.id) &&
      (updNewsOf sot ledger).all (fun q => e.id ≠ q.1.id))).map (fun e => e.id),
      i ≤ maxId ledger := by
    intro i hi
    rcases List.mem_map.mp hi with ⟨e, he, hei⟩
    have hel : e ∈ ledger := ledgerAfterDedup_sub ledger e (List.mem_filter.mp he).1
    rw [← hei]
    exact maxId_mem ledger e hel
  have hUrange : ∀ i ∈ ((updNewsOf sot ledger).map Prod.snd).map (fun e => e.id),
      maxId ledger + 1 ≤ i ∧ i < maxId ledger + 1 + (toUpdateOf sot ledger).length := by
    intro i hi
    rcases List.mem_map.mp hi with ⟨x, hx, hxi⟩
    rcases List.mem_map.mp hx with ⟨q, hq, hqx⟩
    have hb := assignUpd_snd_bounds (toUpdateOf sot ledger) (maxId ledger + 1) q hq
    rw [← hxi, ← hqx]
    exact hb
  have hCge : ∀ i ∈ (crNewsOf sot ledger).map (fun e => e.id),
      maxId ledger + 1 + (toUpdateOf sot ledger).length ≤ i := by
    intro i hi
    rcases List.mem_map.mp hi with ⟨x, hx, hxi⟩
    have hb := assignNew_bounds _ _ x hx
    rw [← hxi]
    exact hb.1
  have hSnodup : (((ledgerAfterDedup ledger).filter (fun e =>
      (toDeleteOf sot ledger).all (fun p => p.2.id ≠ e.id) &&
      (updNewsOf sot ledger).all (fun q => e.id ≠ q.1.id))).map (fun e => e.id)).Nodup :=
    (List.Sublist.map _ (List.filter_sublist _)).nodup (ledgerAfterDedup_ids_nodup ledger hnd)
  refine List.nodup_append.mpr ⟨List.nodup_append.mpr ⟨hSnodup, ?_, ?_⟩, ?_, ?_⟩
  · exact assignUpd_snd_ids_nodup (toUpdateOf sot ledger) (maxId ledger + 1)
  · intro i hiS hiU
    have h1 := hSle i hiS
    have h2 := hUrange i hiU
    omega
  · exact assignNew_ids_nodup ((toCreateOf sot ledger).map Prod.snd)
      (maxId ledger + 1 + (toUpdateOf sot ledger).length)
  · intro i hi hiC
    have h3 := hCge i hiC
    rcases List.mem_append.mp hi with h | h
    · have h1 := hSle i h
      omega
    · have h2 := hUrange i h
      omega

theorem pairwise_of_countP_one : ∀ (l : List DP),
    (∀ e ∈ l, l.countP (fun x => dayOf x.timestamp == dayOf e.timestamp) = 1) →
    List.Pairwise (fun a b => dayOf a.timestamp ≠ dayOf b.timestamp) l := by
  intro l
  induction l with
  | nil => intro _; exact List.Pairwise.nil
  | cons a r ih =>
    intro h
    have ha := h a (List.mem_cons_self a r)
    rw [List.countP_cons] at ha
    simp only [beq_self_eq_true, if_pos] at ha
    have hzero : r.countP (fun x => dayOf x.timestamp == dayOf a.timestamp) = 0 := by omega
    have hrne : ∀ x ∈ r, dayOf x.timestamp ≠ dayOf a.timestamp := by
      intro x hx
      have := List.countP_eq_zero.mp hzero x hx
      simpa using this
    refine List.Pairwise.cons ?_ (ih ?_)
    · intro b hb hc
      exact hrne b hb hc.symm
    · intro e he
      have h2 := h e (List.mem_cons_of_mem a he)
      rw [List.countP_cons] at h2
      by_cases hda : dayOf a.timestamp = dayOf e.timestamp
      · exfalso
        have := List.countP_eq_zero.mp hzero e he
        simp only [beq_iff_eq] at this
        exact this (hda ▸ rfl)
      · simpa [hda] using h2

theorem dedupDups_nil_of_dateInj : ∀ (l : List DP),
    List.Pairwise (fun a b => dayOf a.timestamp ≠ dayOf b.timestamp) l →
    dedupDups l = [] := by
  intro l
  induction l using List.reverseRecOn with
  | nil => intro _; rfl
  | append_singleton l x ih =>
    intro hpw
    have hpw' := List.pairwise_append.mp hpw
    have hlk : alookup (dedupMap l) (dayOf x.timestamp) = none := by
      rw [dedupMap_lookup, firstMaxTs_eq_none, groupAtDay, List.filter_eq_nil]
      intro a ha
      simp only [beq_iff_eq]
      exact hpw'.2.2 a ha x (List.mem_singleton_self x)
    rw [dedupDups_append, dedupStep_none _ _ hlk]
    exact ih hpw'.1

theorem traceOf_nil_of_matches (sot : List SotViolation) (l : List DP)
    (hnd : (l.map (fun e => e.id)).Nodup)
    (hm : ledgerMatches (buildSotMap sot) l = true) :
    traceOf sot l = [] := by
  rw [ledgerMatches, Bool.and_eq_true] at hm
  obtain ⟨hm1, hm2⟩ := hm
  have hlk : ∀ e ∈ l, ∃ v, alookup (buildSotMap sot) (dayOf e.timestamp) = some v ∧
      (max e.timestamp v.timestamp - min e.timestamp v.timestamp ≤ 1) ∧
      e.value = v.value ∧ e.comment = v.comment := by
    intro e he
    have h := List.all_eq_true.mp hm1 e he
    cases hv : alookup (buildSotMap sot) (dayOf e.timestamp) with
    | none =>
      simp only [hv] at h
      simp at h
    | some v =>
      simp only [hv, Bool.and_eq_true, beq_iff_eq, decide_eq_true_eq] at h
      exact ⟨v, rfl, h.1.1, h.1.2, h.2⟩
  have hcount : ∀ e ∈ l, l.countP (fun x => dayOf x.timestamp == dayOf e.timestamp) = 1 := by
    intro e he
    rcases hlk e he with ⟨v, hv, _, _, _⟩
    have hmem := alookup_mem _ _ _ hv
    have := List.all_eq_true.mp hm2 (dayOf e.timestamp, v) hmem
    simpa using this
  have hdups : dedupDups l = [] :=
    dedupDups_nil_of_dateInj l (pairwise_of_countP_one l hcount)
  have hlad : ledgerAfterDedup l = l := ledgerAfterDedup_eq_self l hdups
  have hint := byDate_interface l hnd
  have hTD : toDeleteOf sot l = [] := by
    rw [toDeleteOf, List.filter_eq_nil]
    intro p hp
    have hlkp : alookup (byDateOf l) p.1 = some p.2 :=
      alookup_of_mem_nodup _ _ _ hint.2 hp
    have hpl := (hint.1 p.1 p.2).mp hlkp
    rw [hlad] at hpl
    rcases hlk p.2 hpl.1 with ⟨v, hv, _, _, _⟩
    rw [hpl.2] at hv
    simp [hv]
  have hTU : toUpdateOf sot l = [] := by
    rw [toUpdateOf, List.filterMap_eq_nil]
    intro p hp
    have hlkp : alookup (byDateOf l) p.1 = some p.2 :=
      alookup_of_mem_nodup _ _ _ hint.2 hp
    have hpl := (hint.1 p.1 p.2).mp hlkp
    rw [hlad] at hpl
    rcases hlk p.2 hpl.1 with ⟨v, hv, h1, h2, h3⟩
    rw [hpl.2] at hv
    have hmf : mismatch p.2 v = false := (mismatch_false_iff p.2 v).mpr ⟨h1, h2, h3⟩
    exact updCheck_neg sot p v hv (by simp [hmf])
  have hTC : toCreateOf sot l = [] := by
    rw [toCreateOf, List.filter_eq_nil]
    intro p hp
    simp only [decide_eq_true_eq]
    intro hnone
    have hc := List.all_eq_true.mp hm2 p hp
    have hc1 : l.countP (fun x => dayOf x.timestamp == p.1) = 1 := by simpa using hc
    have hzero : l.countP (fun x => dayOf x.timestamp == p.1) = 0 := by
      rw [List.countP_eq_zero]
      intro e he
      simp only [beq_iff_eq]
      intro hed
      have hsome : alookup (byDateOf l) p.1 = some e :=
        (hint.1 p.1 e).mpr ⟨by rw [hlad]; exact he, hed⟩
      rw [hnone] at hsome
      cases hsome
    omega
  have hUN : updNewsOf sot l = [] := by
    rw [updNewsOf, hTU]
    rfl
  have hCN : crNewsOf sot l = [] := by
    rw [crNewsOf, hTC]
    rfl
  rw [traceOf, hdups, hTD, hUN, hCN]
  rfl

theorem dropWhile_append_of_all {α : Type} (p : α → Bool) (A C : List α)
    (hA : A.all p = true) : (A ++ C).dropWhile p = C.dropWhile p := by
  induction A with
  | nil => rfl
  | cons a r ih =>
    simp only [List.all_cons, Bool.and_eq_true] at hA
    rw [List.cons_append, List.dropWhile_cons, if_pos hA.1]
    exact ih hA.2

theorem all_dropWhile {α : Type} (p q : α → Bool) (C : List α) (h : C.all q = true) :
    (C.dropWhile p).all q = true := by
  induction C with
  | nil => rfl
  | cons a r ih =>
    simp only [List.all_cons, Bool.and_eq_true] at h
    rw [List.dropWhile_cons]
    by_cases hp : p a = true
    · rw [if_pos hp]
      exact ih h.2
    · rw [if_neg hp, List.all_cons, h.1, h.2]
      rfl

theorem assignUpd_length : ∀ (pairs : List (DP × SotViolation)) (base : Nat),
    (assignUpd base pairs).length = pairs.length := by
  intro pairs
  induction pairs with
  | nil => intro base; rfl
  | cons p rest ih =>
    intro base
    obtain ⟨e, v⟩ := p
    simp only [assignUpd, List.length_cons, ih]

theorem delsBeforeCreates_char (A C : List Op) (ps : List (DP × DP))
    (hA : A.all isDeleteOp = true) (hC : C.all isCreateOp = true) :
    delsBeforeCreates
        (A ++ ps.flatMap (fun q => [Op.delete q.1.id, Op.create q.2]) ++ C) =
      decide (ps.length ≤ 1) := by
  rw [delsBeforeCreates, List.append_assoc, dropWhile_append_of_all _ _ _ hA]
  rcases ps with _ | ⟨q1, _ | ⟨q2, rest⟩⟩
  · have h0 : (([] : List (DP × DP)).flatMap
        (fun q => [Op.delete q.1.id, Op.create q.2])) = [] := rfl
    rw [h0, List.nil_append, all_dropWhile _ _ _ hC]
    rfl
  · have h1 : (([q1] : List (DP × DP)).flatMap
        (fun q => [Op.delete q.1.id, Op.create q.2]))
        = [Op.delete q1.1.id, Op.create q1.2] := rfl
    rw [h1, List.cons_append, List.cons_append, List.nil_append,
      List.dropWhile_cons,
      if_pos (show isDeleteOp (Op.delete q1.1.id) = true from rfl),
      List.dropWhile_cons,
      if_neg (show ¬ isDeleteOp (Op.create q1.2) = true from fun h => Bool.false_ne_true h),
      List.all_cons, hC]
    rfl
  · have h2 : ((q1 :: q2 :: rest).flatMap
        (fun q => [Op.delete q.1.id, Op.create q.2]))
        = Op.delete q1.1.id :: Op.create q1.2 :: Op.delete q2.1.id :: Op.create q2.2 ::
          (rest.flatMap (fun q => [Op.delete q.1.id, Op.create q.2])) := rfl
    have hlen : ¬ ((q1 :: q2 :: rest).length ≤ 1) := by
      simp only [List.length_cons]
      omega
    rw [decide_eq_false hlen, h2, List.cons_append, List.cons_append, List.cons_append,
      List.cons_append, List.dropWhile_cons,
      if_pos (show isDeleteOp (Op.delete q1.1.id) = true from rfl),
      List.dropWhile_cons,
      if_neg (show ¬ isDeleteOp (Op.create q1.2) = true from fun h => Bool.false_ne_true h)]
    simp [List.all_cons, isCreateOp]

end BM

/-- Claim C2 counterexample: the 1-second timestamp tolerance of
selective_sync_datapoints keeps a ledger entry whose timestamp differs
from the authoritative one, so the final ledger does not carry the
authoritative timestamp exactly. -/

theorem claim_C2_counterexample :
    (BM.runSync [vTol] [eTol]).ledger = [eTol] ∧
      BM.dayOf eTol.timestamp = vTol.date ∧ eTol.timestamp ≠ vTol.timestamp := by
  decide

/-- Claim C2: for a date-consistent authority and a ledger with distinct entry
ids, one run of selective_sync_datapoints leaves a ledger in which every
entry sits on an authoritative date and agrees with the authority up to
the 1-second timestamp tolerance, and every authoritative date owns
exactly one entry. -/

theorem claim_C2_theorem (sot : List BM.SotViolation) (ledger : List BM.DP)
    (hwf : BM.wfSot sot = true) (hnd : (ledger.map (fun e => e.id)).Nodup) :
    BM.ledgerMatches (BM.buildSotMap sot) (BM.runSync sot ledger).ledger = true :=
  BM.runSync_matches sot ledger hwf hnd

theorem claim_C2_witness :
    BM.ledgerMatches (BM.buildSotMap [v15]) (BM.runSync [v15] [eStale, eUnauth]).ledger
        = true ∧
      ((BM.runSync [v15] [eStale, eUnauth]).ledger).countP
        (fun e => BM.dayOf e.timestamp == 20315) = 1 ∧
      ((BM.runSync [v15] [eStale, eUnauth]).ledger).countP
        (fun e => BM.dayOf e.timestamp == 20317) = 0 :=
  ⟨claim_C2_theorem [v15] [eStale, eUnauth] (by decide) (by decide), by decide, by decide⟩

/-- Claim C3 counterexample: an authority entry whose date disagrees with the
local day of its own timestamp makes the reconciler delete and recreate
forever, so the second run is not a no-op. -/

theorem claim_C3_counterexample :
    (BM.runSync [vBad] (BM.runSync [vBad] []).ledger).trace ≠ [] ∧
      (BM.runSync [vBad] (BM.runSync [vBad] []).ledger).trace.length = 2 := by
  decide

/-- Claim C3: for a date-consistent authority and a ledger with distinct entry
ids, a second run of selective_sync_datapoints right after a first one
issues no remote call at all. -/

theorem claim_C3_theorem (sot : List BM.SotViolation) (ledger : List BM.DP)
    (hwf : BM.wfSot sot = true) (hnd : (ledger.map (fun e => e.id)).Nodup) :
    (BM.runSync sot (BM.runSync sot ledger).ledger).trace = [] := by
  have h1 := BM.runSync_matches sot ledger hwf hnd
  have h2 := BM.runSync_ids_nodup sot ledger hnd
  exact BM.traceOf_nil_of_matches sot _ h2 h1

theorem claim_C3_witness :
    (BM.runSync [v15] (BM.runSync [v15] [eStale, eUnauth]).ledger).trace = [] :=
  claim_C3_theorem [v15] [eStale, eUnauth] (by decide) (by decide)

/-- Claim C4 counterexample: on a timestamp tie the scan keeps the entry seen
first in fetch order, which here is the one with the SMALLER id, refuting
the id-descending tie-break. -/

theorem claim_C4_counterexample :
    dTie1.timestamp = dTie2.timestamp ∧ dTie1.id < dTie2.id ∧
      BM.dedupMap [dTie1, dTie2] = [(20315, dTie1)] ∧
      BM.dedupDups [dTie1, dTie2] = [dTie2] := by
  decide

/-- Claim C4: the dedup scan of selective_sync_datapoints keeps, per local
date, the first-fetched entry of maximal timestamp, and (for a fetch with
distinct ids) marks exactly the other entries of the date's group for
deletion. -/

theorem claim_C4_theorem (l : List BM.DP) (hnd : (l.map (fun e => e.id)).Nodup) :
    (∀ d, alookup (BM.dedupMap l) d = BM.firstMaxTs (BM.groupAtDay l d)) ∧
    (∀ d e, BM.firstMaxTs (BM.groupAtDay l d) = some e →
        e ∈ BM.groupAtDay l d ∧ ∀ x ∈ BM.groupAtDay l d, x.timestamp ≤ e.timestamp) ∧
    (∀ e ∈ l, e ∈ BM.dedupDups l ↔
        ¬ alookup (BM.dedupMap l) (BM.dayOf e.timestamp) = some e) := by
  refine ⟨fun d => BM.dedupMap_lookup l d, fun d e h => BM.firstMaxTs_mem _ e h, ?_⟩
  intro e he
  constructor
  · intro hd
    exact BM.dups_not_kept l hnd e hd
  · intro hk
    rcases BM.kept_or_dup l e he with h | h
    · exact absurd h hk
    · exact h

theorem claim_C4_witness :
    alookup (BM.dedupMap [eT, eT60]) 20315
        = BM.firstMaxTs (BM.groupAtDay [eT, eT60] 20315) ∧
      BM.firstMaxTs (BM.groupAtDay [eT, eT60] 20315) = some eT60 ∧
      (eT ∈ BM.dedupDups [eT, eT60] ↔
        ¬ alookup (BM.dedupMap [eT, eT60]) (BM.dayOf eT.timestamp) = some eT) :=
  ⟨(claim_C4_theorem [eT, eT60] (by decide)).1 20315, by decide,
    (claim_C4_theorem [eT, eT60] (by decide)).2.2 eT (by decide)⟩

/-- Claim C5 counterexample: the update loop deletes and immediately recreates
each stale datapoint, so with two stale dates a delete call follows a
create call inside one run. -/

theorem claim_C5_counterexample :
    BM.delsBeforeCreates (BM.runSync [w1, w2] [f1, f2]).trace = false ∧
      (BM.runSync [w1, w2] [f1, f2]).trace.length = 4 := by
  decide

/-- Claim C5: the trace of one run is a block of delete calls (duplicates and
to_delete), then the interleaved delete/create pairs of the update loop,
one pair per stale date, then a block of create calls; a delete call never
follows a create call exactly when the update loop treats at most one
stale date. -/

theorem claim_C5_theorem (sot : List BM.SotViolation) (ledger : List BM.DP) :
    ∃ (A : List BM.Op) (ps : List (BM.DP × BM.DP)) (C : List BM.Op),
      (BM.runSync sot ledger).trace =
          A ++ ps.flatMap (fun q => [BM.Op.delete q.1.id, BM.Op.create q.2]) ++ C ∧
        A.all BM.isDeleteOp = true ∧ C.all BM.isCreateOp = true ∧
        ps.length = (BM.toUpdateOf sot ledger).length ∧
        BM.delsBeforeCreates (BM.runSync sot ledger).trace
          = decide ((BM.toUpdateOf sot ledger).length ≤ 1) := by
  have hAall : ((BM.dedupDups ledger).map (fun e => BM.Op.delete e.id)
      ++ (BM.toDeleteOf sot ledger).map (fun p => BM.Op.delete p.2.id)).all
        BM.isDeleteOp = true := by
    rw [List.all_eq_true]
    intro op hop
    rcases List.mem_append.mp hop with h | h
    · rcases List.mem_map.mp h with ⟨x, _, hx⟩
      rw [← hx]
      rfl
    · rcases List.mem_map.mp h with ⟨x, _, hx⟩
      rw [← hx]
      rfl
  have hCall : ((BM.crNewsOf sot ledger).map BM.Op.create).all BM.isCreateOp = true := by
    rw [List.all_eq_true]
    intro op hop
    rcases List.mem_map.mp hop with ⟨x, _, hx⟩
    rw [← hx]
    rfl
  have hlen : (BM.updNewsOf sot ledger).length = (BM.toUpdateOf sot ledger).length :=
    BM.assignUpd_length (BM.toUpdateOf sot ledger) (BM.maxId ledger + 1)
  refine ⟨_, BM.updNewsOf sot ledger, _, rfl, hAall, hCall, hlen, ?_⟩
  show BM.delsBeforeCreates (BM.traceOf sot ledger) = _
  have htr : BM.traceOf sot ledger =
      ((BM.dedupDups ledger).map (fun e => BM.Op.delete e.id)
        ++ (BM.toDeleteOf sot ledger).map (fun p => BM.Op.delete p.2.id))
      ++ (BM.updNewsOf sot ledger).flatMap
          (fun q => [BM.Op.delete q.1.id, BM.Op.create q.2])
      ++ (BM.crNewsOf sot ledger).map BM.Op.create := rfl
  rw [htr, BM.delsBeforeCreates_char _ _ _ hAall hCall, hlen]

theorem claim_C5_witness :
    ∃ (A : List BM.Op) (ps : List (BM.DP × BM.DP)) (C : List BM.Op),
      (BM.runSync [w1, w2] [f1, f2]).trace =
          A ++ ps.flatMap (fun q => [BM.Op.delete q.1.id, BM.Op.create q.2]) ++ C ∧
        A.all BM.isDeleteOp = true ∧ C.all BM.isCreateOp = true ∧
        ps.length = (BM.toUpdateOf [w1, w2] [f1, f2]).length ∧
        BM.delsBeforeCreates (BM.runSync [w1, w2] [f1, f2]).trace
          = decide ((BM.toUpdateOf [w1, w2] [f1, f2]).length ≤ 1) :=
  claim_C5_theorem [w1, w2] [f1, f2]

/-- Claim C8 counterexample: a server holding exactly 300 entries costs the
short-page loop of sync_nightlogger.py 2 list calls where
ceil(300/300) = 1. -/

theorem claim_C8_counterexample :
    server300.length = 300 ∧
      (BM.getGoalDatapointsNL server300).2 = 2 ∧
      (BM.getGoalDatapointsNL server300).2 ≠ (server300.length + 300 - 1) / 300 := by
  have h := BM.fetchPagesShort_spec 300 (by decide) server300.length server300 (le_refl _)
  have hlen : server300.length = 300 := by
    rw [show server300 = List.replicate 300 ⟨1, 0, 1, "x"⟩ from rfl, List.length_replicate]
  refine ⟨hlen, ?_, ?_⟩
  · rw [show (BM.getGoalDatapointsNL server300).2
        = (BM.fetchPagesShort 300 server300).2 from rfl, h.2, hlen]
  · rw [show (BM.getGoalDatapointsNL server300).2
        = (BM.fetchPagesShort 300 server300).2 from rfl, h.2, hlen]
    decide

/-- Claim C8: both pagination loops terminate and return the whole server
list, but neither costs ceil(N/300) calls: the short-page loop of
sync_nightlogger.py makes floor(N/300)+1 calls and the empty-page loop of
sync_violations.py makes floor((N-1)/300)+2 calls on a nonempty server
and 1 call on an empty one. -/

theorem claim_C8_theorem (server : List BM.DP) :
    (BM.getGoalDatapointsNL server).1 = server ∧
      (BM.getGoalDatapointsNL server).2 = server.length / 300 + 1 ∧
      (BM.getGoalDatapointsSV server).1 = server ∧
      (BM.getGoalDatapointsSV server).2 =
        (if server.length = 0 then 1 else (server.length - 1) / 300 + 2) := by
  have h1 := BM.fetchPagesShort_spec 300 (by decide) server.length server (le_refl _)
  have h2 := BM.fetchPagesAll_spec 300 (by decide) server.length server (le_refl _)
  exact ⟨h1.1, h1.2, h2.1, h2.2⟩
